import Mathlib

/-!
# A verification model of the `unravel` decoding engine

This file is a shallow embedding, in Lean 4, of the core of the `unravel`
Go package: the error sentinels, the `Source` capability contract, the
struct-field name-resolution algorithm (`fieldsToSerialize` / `nameOf`),
the setter compiler (`Decoder.setterOf` / `Decoder.makeSetterOf` and the
`makeSet*` constructors), and the execution of compiled setters against a
source and a mutable target value.

Modelling conventions, chosen once and used throughout:

* Go `reflect.Type` is a graph with identity; we model the type graph as an
  environment `TyEnv : List TyDef` and a type is an index (`Nat`) into it,
  so self-referential types are representable and type identity is index
  equality.
* Go errors are the inductive `DErr`; `fmt.Errorf("...: %w", err)` is
  `DErr.wrap ctx err` and `errors.Is` against a sentinel is the
  corresponding `DErr.is*` unwrapping function.
* A Go `Source` implementation is a finitely-branching tree `Source` whose
  constructor fields give the results of each interface method; a source
  implements the `BinarySource` extension iff its `binary` field is `some`.
* A compiled setter (a Go closure) is the deep syntax `SetterD`, one
  constructor per `makeSet*` closure in `decoder.go`; `exec` runs a
  `SetterD` exactly as the corresponding closure body runs, threading the
  target value functionally (Go mutates `reflect.Value` in place; we
  return the possibly-partially-mutated value alongside the outcome).
* The decoder runs on a 64-bit platform (`unsafe.Sizeof(int) == 8`), so
  the `reflect.Int` / `reflect.Uint` cases use the 64-bit bounds.
* Recursion that Go bounds by the shape of its (finite, acyclic-by-value)
  `reflect` types is bounded here by explicit fuel; running out of fuel is
  the distinguished outcome `CompErr.cfuel` / `DecOut.outOfFuel`, which no
  modelled code path of the Go program itself produces.
-/

/-- Errors of the Go code: the sentinels `ErrNoValue`, `ErrNotSupported`,
`strconv.ErrRange`, the struct error `NotSupportedError{Type}`, wrapped
errors produced by `fmt.Errorf("...: %w", e)`, and plain message errors
(including modelled panics). -/
inductive DErr where
  | noValue
  | notSupported
  | rangeErr
  | notSupportedType (ty : Nat)
  | wrap (ctx : String) (e : DErr)
  | msg (s : String)
deriving Repr, DecidableEq

/-- `errors.Is(e, ErrNoValue)`: unwrap `%w` chains down to the sentinel. -/
def DErr.isNoValue : DErr → Bool
  | .wrap _ e => e.isNoValue
  | .noValue => true
  | _ => false

/-- `errors.Is(e, ErrNotSupported)`. -/
def DErr.isNotSupported : DErr → Bool
  | .wrap _ e => e.isNotSupported
  | .notSupported => true
  | _ => false

/-- `errors.Is(e, strconv.ErrRange)`. -/
def DErr.isRange : DErr → Bool
  | .wrap _ e => e.isRange
  | .rangeErr => true
  | _ => false

/-- Results of the optional `BinarySource` extension interface: each method
`Int8() (int8, error)`, ..., `Float64() (float64, error)` either fails or
returns a value of the exact width. Signed results are `Int`, unsigned are
`Nat`; float payloads are opaque bit patterns (`Nat`), since no modelled
behaviour inspects them. -/
structure BinVals where
  int8R : Except DErr Int
  int16R : Except DErr Int
  int32R : Except DErr Int
  int64R : Except DErr Int
  uint8R : Except DErr Nat
  uint16R : Except DErr Nat
  uint32R : Except DErr Nat
  uint64R : Except DErr Nat
  float32R : Except DErr Nat
  float64R : Except DErr Nat

/-- One node of a caller-supplied data source, i.e. one value implementing
the Go `Source` interface.  The constructor fields are, in order: the
results of `Bool()`, `Int()`, `Uint()`, `Float()`, `String()`; whether
`Get` fails with `ErrNotSupported` for every key (a value with no children
at all); per-key `Get` errors; the child values `Get` succeeds on (a key
found in neither list yields `ErrNoValue`, per the `Source.Get` contract);
the result of `KeyValues()` (an error, or the yielded pairs); the result of
`Iter()` (an error, or the yielded elements); and the `BinarySource`
extension, when implemented. -/
inductive Source where
  | mk : Except DErr Bool → Except DErr Int → Except DErr Nat →
      Except DErr Nat → Except DErr String →
      Bool → List (String × DErr) → List (String × Source) →
      Option DErr → List (Source × Source) →
      Option DErr → List Source →
      Option BinVals → Source

/-- `Source.Bool()`. -/
def srcBool : Source → Except DErr Bool
  | .mk b _ _ _ _ _ _ _ _ _ _ _ _ => b

/-- `Source.Int()`. -/
def srcInt : Source → Except DErr Int
  | .mk _ i _ _ _ _ _ _ _ _ _ _ _ => i

/-- `Source.Uint()`. -/
def srcUint : Source → Except DErr Nat
  | .mk _ _ u _ _ _ _ _ _ _ _ _ _ => u

/-- `Source.Float()` (payload is an opaque bit pattern). -/
def srcFloat : Source → Except DErr Nat
  | .mk _ _ _ f _ _ _ _ _ _ _ _ _ => f

/-- `Source.String()`. -/
def srcString : Source → Except DErr String
  | .mk _ _ _ _ s _ _ _ _ _ _ _ _ => s

/-- `Source.Get(key)`: `ErrNotSupported` when the value has no children at
all, a per-key error when the source reports one, the child when present,
and otherwise `ErrNoValue`. -/
def srcGet : Source → String → Except DErr Source
  | .mk _ _ _ _ _ ns ge ch _ _ _ _ _, k =>
    if ns then .error .notSupported
    else match ge.lookup k with
      | some e => .error e
      | none => match ch.lookup k with
        | some c => .ok c
        | none => .error .noValue

/-- `Source.KeyValues()`. -/
def srcKeyValues : Source → Except DErr (List (Source × Source))
  | .mk _ _ _ _ _ _ _ _ ke kvs _ _ _ =>
    match ke with
    | some e => .error e
    | none => .ok kvs

/-- `Source.Iter()`. -/
def srcIter : Source → Except DErr (List Source)
  | .mk _ _ _ _ _ _ _ _ _ _ ie el _ =>
    match ie with
    | some e => .error e
    | none => .ok el

/-- The `BinarySource` extension of this source, when implemented
(`source.(BinarySource)` type assertion). -/
def srcBinary : Source → Option BinVals
  | .mk _ _ _ _ _ _ _ _ _ _ _ _ bv => bv

/-- A decoded Go value sitting in a target slot (`reflect.Value`).
Pointer values are `none` (nil) or hold their pointee; struct values are
positional (field `i` of the `reflect` struct is list position `i`);
`vOther` is the zero value of a kind the decoder does not support (which
`reflect.New` still produces — allocation never fails in Go). -/
inductive Value where
  | vBool (b : Bool)
  | vInt (i : Int)
  | vUint (n : Nat)
  | vFloat (bits : Nat)
  | vString (s : String)
  | vPtr (p : Option Value)
  | vStruct (fs : List Value)
  | vSlice (l : List Value)
  | vArray (l : List Value)
  | vMap (entries : List (Value × Value))
  | vOther
deriving Repr, BEq

/-- Struct tags of one struct member: the assoc list of `key:"value"`
entries; `reflect.StructTag.Get` returns `""` for an absent key. -/
def tagGet (tags : List (String × String)) (key : String) : String :=
  (tags.lookup key).getD ""

/-- One member of a Go struct type: `reflect.StructField` restricted to
what `fieldsToSerialize` consults — name, tag, `Anonymous`, exported-ness,
and the member's type (an index into the type environment). -/
structure FieldDef where
  fname : String
  tags : List (String × String)
  anonymous : Bool
  exported : Bool
  ty : Nat
deriving Repr, DecidableEq

/-- One node of the `reflect` type graph.  `dTextUM` stands for a type `T`
with `*T` implementing `encoding.TextUnmarshaler`; `dOther` covers every
kind the decoder does not support (chan, func, interface, ...). On a 64-bit
platform `int` is `dInt` and decodes with the 64-bit bounds. -/
inductive TyDef where
  | dBool
  | dInt
  | dInt8
  | dInt16
  | dInt32
  | dInt64
  | dUint
  | dUint8
  | dUint16
  | dUint32
  | dUint64
  | dFloat32
  | dFloat64
  | dString
  | dTextUM
  | dPtr (t : Nat)
  | dSlice (t : Nat)
  | dArray (n : Nat) (t : Nat)
  | dMap (k v : Nat)
  | dStruct (fields : List FieldDef)
  | dOther
deriving Repr, DecidableEq

/-- The type graph: a type is an index into this list, mirroring
`reflect.Type` identity. -/
abbrev TyEnv := List TyDef

/-- Resolve a type index; dangling indices (which a real `reflect` graph
cannot contain) behave as an unsupported kind. -/
def envTy (env : TyEnv) (ty : Nat) : TyDef :=
  (env.get? ty).getD .dOther

/-- `Decoder` configuration: the struct tag key and the require-values
mode. The setter cache is threaded separately (`CState`), mirroring the
`sync.Map` field. -/
structure Decoder where
  structTag : String
  requireValues : Bool
deriving Repr, DecidableEq

/-- `NewDecoder()`. -/
def NewDecoder : Decoder := { structTag := "json", requireValues := false }

/-- `Decoder.WithTag`. -/
def Decoder.WithTag (d : Decoder) (structTag : String) : Decoder :=
  if d.structTag = structTag then d
  else { structTag := structTag, requireValues := d.requireValues }

/-- `Decoder.RequireValues`. -/
def Decoder.RequireValues (d : Decoder) : Decoder :=
  if d.requireValues then d
  else { structTag := d.structTag, requireValues := true }

/-- The zero `reflect` value of a type (`reflect.New(ty).Elem()`),
with fuel for the struct/array recursion (Go types cannot nest by value
circularly, so enough fuel always exists for a real type). -/
def zeroValue (env : TyEnv) : Nat → Nat → Option Value
  | 0, _ => none
  | fuel + 1, ty =>
    match envTy env ty with
    | .dBool => some (.vBool false)
    | .dInt => some (.vInt 0)
    | .dInt8 => some (.vInt 0)
    | .dInt16 => some (.vInt 0)
    | .dInt32 => some (.vInt 0)
    | .dInt64 => some (.vInt 0)
    | .dUint => some (.vUint 0)
    | .dUint8 => some (.vUint 0)
    | .dUint16 => some (.vUint 0)
    | .dUint32 => some (.vUint 0)
    | .dUint64 => some (.vUint 0)
    | .dFloat32 => some (.vFloat 0)
    | .dFloat64 => some (.vFloat 0)
    | .dString => some (.vString "")
    | .dTextUM => some (.vString "")
    | .dPtr _ => some (.vPtr none)
    | .dSlice _ => some (.vSlice [])
    | .dMap _ _ => some (.vMap [])
    | .dArray n e => (zeroValue env fuel e).map (fun z => .vArray (List.replicate n z))
    | .dStruct fds => (fds.mapM (fun f => zeroValue env fuel f.ty)).map .vStruct
    | .dOther => some .vOther

/-- Split a tag value at its first comma (`strings.IndexByte(tag, ',')`):
`none` when there is no comma, otherwise the part before and after it. -/
def commaSplit : List Char → Option (List Char × List Char)
  | [] => none
  | c :: rest =>
    if c = ',' then some ([], rest)
    else match commaSplit rest with
      | none => none
      | some (a, b) => some (c :: a, b)

/-- `nameOf(fi, structTag)`: resolve a struct member's serialized name from
its tag. Empty tag keeps the member name (implicit); `"-"` returns the
empty name, which the caller treats as "skip this member"; otherwise the
part before the first comma is the explicit name, except that an empty part
falls back to the member name (implicit). -/
def nameOf (fi : FieldDef) (structTag : String) : String × Bool :=
  let tag := tagGet fi.tags structTag
  if tag = "" then (fi.fname, false)
  else if tag = "-" then ("", true)
  else match commaSplit tag.toList with
    | none => (tag, true)
    | some ([], _) => (fi.fname, false)
    | some (a, _) => (String.mk a, true)

/-- A resolved struct field: final name, type, and the positional path
(`field.Index`) through promoted embedded structs. -/
structure FieldR where
  name : String
  ty : Nat
  index : List Nat
deriving Repr, DecidableEq

/-- A name-resolution candidate (`Candidate` in `fieldsToSerialize`). -/
structure Cand where
  name : String
  explicit : Bool
  fieldR : FieldR
deriving Repr, DecidableEq

/-- Append-or-create on the candidate map `map[string][]Candidate`,
together with the first-seen `order` list. -/
def addCand (order : List String) (cmap : List (String × List Cand)) (c : Cand) :
    List String × List (String × List Cand) :=
  match cmap.lookup c.name with
  | none => (order ++ [c.name], cmap ++ [(c.name, [c])])
  | some cs => (order, cmap.map (fun p => if p.1 = c.name then (p.1, cs ++ [c]) else p))

/-- The body of the BFS loop of `fieldsToSerialize` for one queued item:
scan the item's members in order, skipping unexported members and members
whose resolved name is empty; queue implicitly-named embedded structs for
promotion at depth + 1; everything else becomes a candidate. Returns the
new queue entries and the updated order/candidate map. -/
def scanFields (env : TyEnv) (structTag : String) (parentIndex : List Nat)
    (fds : List FieldDef) (idx : Nat) (order : List String)
    (cmap : List (String × List Cand)) :
    List (Nat × List Nat) × List String × List (String × List Cand) :=
  match fds with
  | [] => ([], order, cmap)
  | fi :: rest =>
    if !fi.exported then scanFields env structTag parentIndex rest (idx + 1) order cmap
    else
      let ne := nameOf fi structTag
      if ne.1 = "" then scanFields env structTag parentIndex rest (idx + 1) order cmap
      else
        let index := parentIndex ++ [idx]
        if fi.anonymous && !ne.2 then
          match envTy env fi.ty with
          | .dStruct _ =>
            let (q, o, m) := scanFields env structTag parentIndex rest (idx + 1) order cmap
            ((fi.ty, index) :: q, o, m)
          | _ => scanFields env structTag parentIndex rest (idx + 1) order cmap
        else
          let (o, m) := addCand order cmap
            { name := ne.1, explicit := ne.2,
              fieldR := { name := ne.1, ty := fi.ty, index := index } }
          scanFields env structTag parentIndex rest (idx + 1) o m

/-- The BFS queue loop of `fieldsToSerialize`, with fuel bounding the
number of processed queue items (finitely many for any real Go type, since
structs cannot embed themselves by value). -/
def collectCands (env : TyEnv) (structTag : String) :
    Nat → List (Nat × List Nat) → List String → List (String × List Cand) →
    Except Unit (List String × List (String × List Cand))
  | _, [], order, cmap => .ok (order, cmap)
  | 0, _ :: _, _, _ => .error ()
  | fuel + 1, (tyIdx, parentIndex) :: queue, order, cmap =>
    match envTy env tyIdx with
    | .dStruct fds =>
      let (q, o, m) := scanFields env structTag parentIndex fds 0 order cmap
      collectCands env structTag fuel (queue ++ q) o m
    | _ => collectCands env structTag fuel queue order cmap

/-- The `visible` computation of `fieldsToSerialize`: the Go loop scans all
candidates and keeps extending `visible = candidates[:idx+1]` whenever
candidate `idx` has the same index length as candidate `0`; the result is
`candidates[:lastLen l0 cands 0 0]`. -/
def lastLen (l0 : Nat) : List Cand → Nat → Nat → Nat
  | [], _, acc => acc
  | c :: rest, idx, acc =>
    lastLen l0 rest (idx + 1) (if c.fieldR.index.length = l0 then idx + 1 else acc)

/-- `slices.IsSortedFunc` with the index-length comparator: adjacent pairs
are non-decreasing. -/
def sortedLens : List Nat → Bool
  | [] => true
  | [_] => true
  | a :: b :: rest => decide (a ≤ b) && sortedLens (b :: rest)

/-- The per-name selection of `fieldsToSerialize`: panic (modelled as
`.error ()`) when the candidate list is empty or not sorted by index
length; otherwise compute the `visible` prefix, let a unique visible
candidate win (`len(visible) == 1` and `visible[0]` rendered as the
singleton match), otherwise a unique explicit visible candidate
(`slices.DeleteFunc` dropping implicit ones is the `filter`), and
otherwise drop the name silently. `.ok none` is "dropped". -/
def selectCand (cands : List Cand) : Except Unit (Option FieldR) :=
  match cands with
  | [] => .error ()
  | c0 :: _ =>
    if !sortedLens (cands.map (fun c => c.fieldR.index.length)) then .error ()
    else
      match cands.take (lastLen c0.fieldR.index.length cands 0 0) with
      | [w] => .ok (some w.fieldR)
      | vis =>
        match vis.filter (fun c => c.explicit) with
        | [w] => .ok (some w.fieldR)
        | _ => .ok none

/-- The final loop of `fieldsToSerialize`: walk `order`, select per name. -/
def resolveNames (cmap : List (String × List Cand)) :
    List String → Except Unit (List FieldR)
  | [] => .ok []
  | name :: rest => do
    let r ← selectCand ((cmap.lookup name).getD [])
    let fs ← resolveNames cmap rest
    match r with
    | some f => return f :: fs
    | none => return fs

/-- Outcome type of compilation: a Go error (possibly a modelled panic),
or fuel exhaustion — an artifact of the embedding that the Go code never
produces for real (finite, acyclic-by-value) `reflect` types. -/
inductive CompErr where
  | cfail (e : DErr)
  | cfuel
deriving Repr, DecidableEq

/-- `fmt.Errorf("ctx: %w", e)` lifted to compilation outcomes. -/
def wrapC (ctx : String) : CompErr → CompErr
  | .cfail e => .cfail (.wrap ctx e)
  | .cfuel => .cfuel

/-- `fieldsToSerialize(ty, structTag)`: panic when `ty` is not a struct;
otherwise run the BFS over embedded structs and resolve each first-seen
name. `bfsFuel` bounds the number of BFS steps. -/
def fieldsToSerialize (bfsFuel : Nat) (env : TyEnv) (ty : Nat) (structTag : String) :
    Except CompErr (List FieldR) :=
  match envTy env ty with
  | .dStruct _ =>
    match collectCands env structTag bfsFuel [(ty, [])] [] [] with
    | .error _ => .error .cfuel
    | .ok (order, cmap) =>
      match resolveNames cmap order with
      | .error _ => .error (.cfail (.msg "panic in fieldsToSerialize"))
      | .ok fs => .ok fs
  | _ => .error (.cfail (.msg "panic: not a struct"))

/-- Which `BinarySource` method the compiled signed-integer setter calls
(`BinarySource.Int8` ... `BinarySource.Int64`). -/
inductive BinIntSel where
  | b8
  | b16
  | b32
  | b64
deriving Repr, DecidableEq

/-- Which `BinarySource` method the compiled unsigned setter calls. -/
inductive BinUintSel where
  | u8
  | u16
  | u32
  | u64
deriving Repr, DecidableEq

/-- Apply the selected signed `BinarySource` method. -/
def binIntOf : BinIntSel → BinVals → Except DErr Int
  | .b8, bv => bv.int8R
  | .b16, bv => bv.int16R
  | .b32, bv => bv.int32R
  | .b64, bv => bv.int64R

/-- Apply the selected unsigned `BinarySource` method. -/
def binUintOf : BinUintSel → BinVals → Except DErr Nat
  | .u8, bv => bv.uint8R
  | .u16, bv => bv.uint16R
  | .u32, bv => bv.uint32R
  | .u64, bv => bv.uint64R

def maxInt64 : Int := 2 ^ 63 - 1
def minInt64 : Int := -(2 ^ 63)
def maxUint64 : Nat := 2 ^ 64 - 1

/-- A compiled setter: the deep syntax of the closures built in
`decoder.go`, one constructor per `makeSet*` / `set*` function.
`sPtr` carries the zero pointee that `reflect.New(pointeeType)` creates at
run time, `sSlice` the compile-time `placeholderValue`, `sMap` the zero
key/value slots, and `sLazy ty` is the cycle thunk that looks the real
setter up in the cache when executed. -/
inductive SetterD where
  | sBool
  | sInt (sel : BinIntSel) (minValue maxValue : Int)
  | sUint (sel : BinUintSel) (maxValue : Nat)
  | sFloat
  | sString
  | sTextUM
  | sPtr (pointeeZero : Value) (pointee : SetterD)
  | sStruct (fields : List (String × List Nat × SetterD))
  | sSlice (placeholder : Value) (elem : SetterD)
  | sArray (count : Nat) (elem : SetterD)
  | sMap (keyZero valueZero : Value) (key value : SetterD)
  | sLazy (ty : Nat)
deriving Repr

/-- The mutable compilation state of a `Decoder`: the in-construction set
(Go's `inConstruction typeSet`, which only ever grows) and the setter
cache (`setterCache sync.Map`), keyed by type identity. -/
structure CState where
  inCon : List Nat
  cache : List (Nat × SetterD)

mutual

/-- `Decoder.setterOf`: return the cached setter if present; return the
lazy cache-lookup thunk when `ty` is already being compiled; otherwise
mark `ty` in construction, build its setter, store it in the cache and
return it. `fuel` bounds the recursion depth of the embedding; `auxFuel`
bounds the BFS/zero-value recursions inside one step. -/
def setterOf (d : Decoder) (env : TyEnv) (auxFuel : Nat) :
    Nat → CState → Nat → Except CompErr (SetterD × CState)
  | fuel, st, ty =>
    match st.cache.lookup ty with
    | some s => .ok (s, st)
    | none =>
      if ty ∈ st.inCon then .ok (.sLazy ty, st)
      else match fuel with
        | 0 => .error .cfuel
        | fuel + 1 =>
          match makeSetterOf d env auxFuel fuel { st with inCon := ty :: st.inCon } ty with
          | .error e => .error e
          | .ok (s, st2) => .ok (s, { st2 with cache := (ty, s) :: st2.cache })

termination_by fuel _ _ => (fuel, 0, 0)

/-- `Decoder.makeSetterOf`: the `TextUnmarshaler` probe followed by the
kind switch. The 64-bit platform branch is taken for `int`/`uint`. -/
def makeSetterOf (d : Decoder) (env : TyEnv) (auxFuel : Nat) :
    Nat → CState → Nat → Except CompErr (SetterD × CState)
  | fuel, st, ty =>
    match envTy env ty with
    | .dTextUM => .ok (.sTextUM, st)
    | .dBool => .ok (.sBool, st)
    | .dInt => .ok (.sInt .b64 minInt64 maxInt64, st)
    | .dInt8 => .ok (.sInt .b8 (-128) 127, st)
    | .dInt16 => .ok (.sInt .b16 (-32768) 32767, st)
    | .dInt32 => .ok (.sInt .b32 (-2147483648) 2147483647, st)
    | .dInt64 => .ok (.sInt .b64 minInt64 maxInt64, st)
    | .dUint => .ok (.sUint .u64 maxUint64, st)
    | .dUint8 => .ok (.sUint .u8 255, st)
    | .dUint16 => .ok (.sUint .u16 65535, st)
    | .dUint32 => .ok (.sUint .u32 4294967295, st)
    | .dUint64 => .ok (.sUint .u64 maxUint64, st)
    | .dFloat32 => .ok (.sFloat, st)
    | .dFloat64 => .ok (.sFloat, st)
    | .dString => .ok (.sString, st)
    | .dPtr t => makeSetPointer d env auxFuel fuel st t
    | .dStruct _ => makeSetStruct d env auxFuel fuel st ty
    | .dSlice t => makeSetSlice d env auxFuel fuel st t
    | .dArray n t => makeSetArray d env auxFuel fuel st n t
    | .dMap k v => makeSetMap d env auxFuel fuel st k v
    | .dOther => .error (.cfail (.notSupportedType ty))

termination_by fuel _ _ => (fuel, 4, 0)

/-- `Decoder.makeSetPointer` (argument is the pointee type `ty.Elem()`):
compile the pointee's setter; the closure later allocates a fresh zero
pointee, runs that setter, and only then assigns the pointer. -/
def makeSetPointer (d : Decoder) (env : TyEnv) (auxFuel : Nat) :
    Nat → CState → Nat → Except CompErr (SetterD × CState)
  | fuel, st, pointeeTy =>
    match setterOf d env auxFuel fuel st pointeeTy with
    | .error e => .error e
    | .ok (ps, st2) =>
      match zeroValue env auxFuel pointeeTy with
      | none => .error .cfuel
      | some pz => .ok (.sPtr pz ps, st2)

termination_by fuel _ _ => (fuel, 3, 0)

/-- `Decoder.makeSetStruct`: resolve the fields (defaulting the tag key to
`"json"`), compile a setter per field, and emit the struct setter. -/
def makeSetStruct (d : Decoder) (env : TyEnv) (auxFuel : Nat) :
    Nat → CState → Nat → Except CompErr (SetterD × CState)
  | fuel, st, ty =>
    let structTag := if d.structTag = "" then "json" else d.structTag
    match fieldsToSerialize auxFuel env ty structTag with
    | .error e => .error e
    | .ok fields =>
      match compileStructFields d env auxFuel fuel st fields with
      | .error e => .error e
      | .ok (fs, st2) => .ok (.sStruct fs, st2)

termination_by fuel _ _ => (fuel, 3, 0)

/-- The per-field loop of `makeSetStruct`, threading the shared
in-construction set and cache. -/
def compileStructFields (d : Decoder) (env : TyEnv) (auxFuel : Nat) :
    Nat → CState → List FieldR →
    Except CompErr (List (String × List Nat × SetterD) × CState)
  | _, st, [] => .ok ([], st)
  | fuel, st, f :: rest =>
    match setterOf d env auxFuel fuel st f.ty with
    | .error e => .error (wrapC ("setter for field " ++ f.name) e)
    | .ok (s, st2) =>
      match compileStructFields d env auxFuel fuel st2 rest with
      | .error e => .error e
      | .ok (fs, st3) => .ok ((f.name, f.index, s) :: fs, st3)

termination_by fuel _ fs => (fuel, 2, fs.length)

/-- `Decoder.makeSetSlice` (argument is the element type): compile the
element setter and record the compile-time zero `placeholderValue`. -/
def makeSetSlice (d : Decoder) (env : TyEnv) (auxFuel : Nat) :
    Nat → CState → Nat → Except CompErr (SetterD × CState)
  | fuel, st, elemTy =>
    match setterOf d env auxFuel fuel st elemTy with
    | .error e => .error (wrapC "setter for element type" e)
    | .ok (es, st2) =>
      match zeroValue env auxFuel elemTy with
      | none => .error .cfuel
      | some ph => .ok (.sSlice ph es, st2)

termination_by fuel _ _ => (fuel, 3, 0)

/-- `Decoder.makeSetArray` (arguments are `ty.Len()` and the element
type). -/
def makeSetArray (d : Decoder) (env : TyEnv) (auxFuel : Nat) :
    Nat → CState → Nat → Nat → Except CompErr (SetterD × CState)
  | fuel, st, n, elemTy =>
    match setterOf d env auxFuel fuel st elemTy with
    | .error e => .error (wrapC "setter for element type" e)
    | .ok (es, st2) => .ok (.sArray n es, st2)

termination_by fuel _ _ _ => (fuel, 3, 0)

/-- `Decoder.makeSetMap` (arguments are the key and value types): compile
both setters; the closure later decodes each pair into fresh zero slots. -/
def makeSetMap (d : Decoder) (env : TyEnv) (auxFuel : Nat) :
    Nat → CState → Nat → Nat → Except CompErr (SetterD × CState)
  | fuel, st, keyTy, valueTy =>
    match setterOf d env auxFuel fuel st keyTy with
    | .error e => .error (wrapC "setter for key type" e)
    | .ok (ks, st2) =>
      match setterOf d env auxFuel fuel st2 valueTy with
      | .error e => .error (wrapC "setter for value type" e)
      | .ok (vs, st3) =>
        match zeroValue env auxFuel keyTy, zeroValue env auxFuel valueTy with
        | some kz, some vz => .ok (.sMap kz vz ks vs, st3)
        | _, _ => .error .cfuel
termination_by fuel _ _ _ => (fuel, 3, 0)

end

/-- Outcome of running a setter: success, a Go error, or fuel exhaustion
(an artifact of the embedding: only the cycle thunk consumes fuel, so a
real Go run that terminates corresponds to a sufficiently fuelled run). -/
inductive DecOut where
  | done
  | fail (e : DErr)
  | outOfFuel
deriving Repr, DecidableEq

/-- `target.FieldByIndex(index)`, read direction: follow the positional
path through (possibly embedded) struct values. -/
def getAtIndex : Value → List Nat → Option Value
  | v, [] => some v
  | .vStruct fs, i :: rest =>
    match fs.get? i with
    | some v => getAtIndex v rest
    | none => none
  | _, _ :: _ => none

/-- `target.FieldByIndex(index)`, write-back direction: replace the value
at the positional path (the functional rendering of `reflect.Value`
aliasing). -/
def putAtIndex : Value → List Nat → Value → Value
  | _, [], nv => nv
  | .vStruct fs, i :: rest, nv =>
    .vStruct (fs.set i (putAtIndex ((fs.get? i).getD (.vBool false)) rest nv))
  | v, _ :: _, _ => v

/-- `reflect.Value.SetMapIndex`: replace the entry of an equal key, or add
the pair. -/
def mapSetIndex (entries : List (Value × Value)) (k v : Value) :
    List (Value × Value) :=
  if entries.any (fun p => p.1 == k) then
    entries.map (fun p => if p.1 == k then (p.1, v) else p)
  else entries ++ [(k, v)]

/-- Every setter has positive size (used for the termination measures of
the executor). -/
theorem SetterD.sizeOf_pos (s : SetterD) : 0 < sizeOf s := by
  cases s <;> simp_arith

mutual

/-- Run a compiled setter (the body of the corresponding Go closure)
against a source and a target slot. Returns the new contents of the slot —
on failure, the partially mutated contents, exactly as the in-place
`reflect` mutation leaves them — together with the outcome. Only the
cycle thunk `sLazy` consumes fuel. -/
def exec (d : Decoder) (cache : List (Nat × SetterD)) :
    Nat → SetterD → Source → Value → Value × DecOut
  | fuel, s, src, tgt =>
    match s with
    | .sBool =>
      match srcBool src with
      | .error e => (tgt, .fail (.wrap "get bool value" e))
      | .ok b => (.vBool b, .done)
    | .sInt sel minValue maxValue =>
      match srcBinary src with
      | some bv =>
        match binIntOf sel bv with
        | .error e => (tgt, .fail (.wrap "get value" e))
        | .ok v => (.vInt v, .done)
      | none =>
        match srcInt src with
        | .error e => (tgt, .fail (.wrap "get int value" e))
        | .ok v =>
          if v < minValue then (tgt, .fail (.wrap "invalid value" .rangeErr))
          else if v > maxValue then (tgt, .fail (.wrap "invalid value" .rangeErr))
          else (.vInt v, .done)
    | .sUint sel maxValue =>
      match srcBinary src with
      | some bv =>
        match binUintOf sel bv with
        | .error e => (tgt, .fail (.wrap "get value" e))
        | .ok v => (.vUint v, .done)
      | none =>
        match srcUint src with
        | .error e => (tgt, .fail (.wrap "get uint value" e))
        | .ok v =>
          if v > maxValue then (tgt, .fail (.wrap "invalid value" .rangeErr))
          else (.vUint v, .done)
    | .sFloat =>
      match srcFloat src with
      | .error e => (tgt, .fail (.wrap "get float value" e))
      | .ok f => (.vFloat f, .done)
    | .sString =>
      match srcString src with
      | .error e => (tgt, .fail (.wrap "get string value" e))
      | .ok str => (.vString str, .done)
    | .sTextUM =>
      match srcString src with
      | .error e => (tgt, .fail (.wrap "get string value" e))
      | .ok str => (.vString str, .done)
    | .sPtr pz ps =>
      match exec d cache fuel ps src pz with
      | (_, .fail e) => (tgt, .fail e)
      | (_, .outOfFuel) => (tgt, .outOfFuel)
      | (pv, .done) => (.vPtr (some pv), .done)
    | .sStruct fields => execFields d cache fuel fields src tgt
    | .sSlice ph es =>
      match srcIter src with
      | .error e => (tgt, .fail (.wrap "as iter" e))
      | .ok srcs =>
        match tgt with
        | .vSlice l =>
          match execSliceLoop d cache fuel es ph srcs l with
          | (l2, out) => (.vSlice l2, out)
        | _ => (tgt, .fail (.msg "model: slice target expected"))
    | .sArray n es =>
      match srcIter src with
      | .error e => (tgt, .fail (.wrap "as iter" e))
      | .ok srcs =>
        match tgt with
        | .vArray l =>
          match execArrayLoop d cache fuel es srcs 0 n l with
          | (l2, out) => (.vArray l2, out)
        | _ => (tgt, .fail (.msg "model: array target expected"))
    | .sMap kz vz ks vs =>
      match srcKeyValues src with
      | .error e => (tgt, .fail (.wrap "iterate key/value pairs" e))
      | .ok pairs =>
        match execMapLoop d cache fuel ks vs kz vz pairs [] with
        | .ok entries => (.vMap entries, .done)
        | .error out => (tgt, out)
    | .sLazy ty =>
      match fuel with
      | 0 => (tgt, .outOfFuel)
      | fuel + 1 =>
        match cache.lookup ty with
        | some s2 => exec d cache fuel s2 src tgt
        | none => (tgt, .fail (.msg "panic: setter not in cache"))
termination_by fuel s _ _ => (fuel, sizeOf s, 0)

/-- The per-field loop of the struct setter: `Get(name)`, the `NoValue`
skip (or require-values failure), the wrapped lookup failure, and the
recursive field decode into `FieldByIndex(field.Index)`. -/
def execFields (d : Decoder) (cache : List (Nat × SetterD)) :
    Nat → List (String × List Nat × SetterD) → Source → Value → Value × DecOut
  | _, [], _, tgt => (tgt, .done)
  | fuel, (name, index, s) :: rest, src, tgt =>
    match srcGet src name with
    | .error e =>
      if e.isNoValue then
        if d.requireValues then (tgt, .fail (.wrap ("field " ++ name) e))
        else execFields d cache fuel rest src tgt
      else (tgt, .fail (.wrap ("lookup child " ++ name) e))
    | .ok fieldSource =>
      match getAtIndex tgt index with
      | none => (tgt, .fail (.msg "model: bad field index"))
      | some fv =>
        match exec d cache fuel s fieldSource fv with
        | (fv2, .done) => execFields d cache fuel rest src (putAtIndex tgt index fv2)
        | (fv2, .fail e) => (putAtIndex tgt index fv2, .fail (.wrap ("set field " ++ name) e))
        | (fv2, .outOfFuel) => (putAtIndex tgt index fv2, .outOfFuel)
termination_by fuel fields _ _ => (fuel, sizeOf fields, 0)

/-- The element loop of the slice setter: append the placeholder to grow
the slice, then decode into the new last slot; a failing element leaves
the grown slice with all previously decoded elements committed. -/
def execSliceLoop (d : Decoder) (cache : List (Nat × SetterD)) :
    Nat → SetterD → Value → List Source → List Value → List Value × DecOut
  | _, _, _, [], l => (l, .done)
  | fuel, es, ph, e :: rest, l =>
    match exec d cache fuel es e ph with
    | (v2, .done) => execSliceLoop d cache fuel es ph rest (l ++ [v2])
    | (v2, .fail er) => (l ++ [v2], .fail (.wrap "set element" er))
    | (v2, .outOfFuel) => (l ++ [v2], .outOfFuel)
termination_by fuel es _ srcs _ => (fuel, sizeOf es, srcs.length + 1)

/-- The element loop of the array setter: pull while `idx < n`, stop on
iterator exhaustion (leaving the tail slots untouched) or after slot
`n - 1` (leaving the remaining elements undrained). -/
def execArrayLoop (d : Decoder) (cache : List (Nat × SetterD)) :
    Nat → SetterD → List Source → Nat → Nat → List Value → List Value × DecOut
  | _, _, [], _, _, l => (l, .done)
  | fuel, es, e :: rest, idx, n, l =>
    if idx < n then
      match exec d cache fuel es e (l.getD idx (.vBool false)) with
      | (v2, .done) => execArrayLoop d cache fuel es rest (idx + 1) n (l.set idx v2)
      | (v2, .fail er) => (l.set idx v2, .fail (.wrap "set element" er))
      | (v2, .outOfFuel) => (l.set idx v2, .outOfFuel)
    else (l, .done)
termination_by fuel es srcs _ _ _ => (fuel, sizeOf es, srcs.length + 1)

/-- The pair loop of the map setter: decode key and value into fresh zero
slots, then `SetMapIndex`; any failure discards the entire map under
construction (the Go code wraps both failures as "set key"). -/
def execMapLoop (d : Decoder) (cache : List (Nat × SetterD)) :
    Nat → SetterD → SetterD → Value → Value → List (Source × Source) →
    List (Value × Value) → Except DecOut (List (Value × Value))
  | _, _, _, _, _, [], acc => .ok acc
  | fuel, ks, vs, kz, vz, (ksrc, vsrc) :: rest, acc =>
    match exec d cache fuel ks ksrc kz with
    | (_, .fail e) => .error (.fail (.wrap "set key" e))
    | (_, .outOfFuel) => .error .outOfFuel
    | (kv, .done) =>
      match exec d cache fuel vs vsrc vz with
      | (_, .fail e) => .error (.fail (.wrap "set key" e))
      | (_, .outOfFuel) => .error .outOfFuel
      | (vv, .done) => execMapLoop d cache fuel ks vs kz vz rest (mapSetIndex acc kv vv)
termination_by fuel ks vs _ _ pairs _ => (fuel, sizeOf ks + sizeOf vs, pairs.length + 1)
decreasing_by
  · simp only [Prod.lex_def, true_and, lt_irrefl, false_or]
    have h1 := SetterD.sizeOf_pos vs
    omega
  · simp only [Prod.lex_def, true_and, lt_irrefl, false_or]
    have h1 := SetterD.sizeOf_pos ks
    omega
  · simp only [Prod.lex_def, true_and, lt_irrefl, false_or, List.length_cons]
    omega

end

/-- `Decoder.Unmarshal` for a target slot of type `ty` holding `tgt`:
compile (or reuse) the setter for `ty` from the given compilation state,
then run it against the source. -/
def unmarshalV (d : Decoder) (env : TyEnv) (auxFuel cfuel xfuel : Nat)
    (st : CState) (ty : Nat) (src : Source) (tgt : Value) : Value × DecOut :=
  match setterOf d env auxFuel cfuel st ty with
  | .error (.cfail e) => (tgt, .fail e)
  | .error .cfuel => (tgt, .outOfFuel)
  | .ok (s, st2) => exec d st2.cache xfuel s src tgt

/-- A source with no capabilities: every method fails with
`ErrNotSupported` (the `EmptySource` adapter). -/
def emptySrc : Source :=
  .mk (.error .notSupported) (.error .notSupported) (.error .notSupported)
    (.error .notSupported) (.error .notSupported)
    true [] [] (some .notSupported) [] (some .notSupported) [] none

/-- A scalar source carrying only a string (no `BinarySource`). -/
def strSrc (s : String) : Source :=
  .mk (.error .notSupported) (.error .notSupported) (.error .notSupported)
    (.error .notSupported) (.ok s)
    true [] [] (some .notSupported) [] (some .notSupported) [] none

/-- A scalar source whose `Int()` and `Uint()` succeed (no
`BinarySource`); `Uint()` is only meaningful for non-negative `i`. -/
def intSrc (i : Int) : Source :=
  .mk (.error .notSupported) (.ok i) (.ok i.toNat)
    (.error .notSupported) (.error .notSupported)
    true [] [] (some .notSupported) [] (some .notSupported) [] none

/-- A container source: `Get` serves the given children, everything else
is unsupported. -/
def objSrc (children : List (String × Source)) : Source :=
  .mk (.error .notSupported) (.error .notSupported) (.error .notSupported)
    (.error .notSupported) (.error .notSupported)
    false [] children (some .notSupported) [] (some .notSupported) [] none

/-- A sequence source: `Iter` yields the given elements. -/
def seqSrc (elems : List Source) : Source :=
  .mk (.error .notSupported) (.error .notSupported) (.error .notSupported)
    (.error .notSupported) (.error .notSupported)
    true [] [] (some .notSupported) [] none elems none

/-- **C6**: For every pointer-kind target, the compiled setter allocates a
fresh zero pointee, runs the pointee's setter against it, and assigns the
pointer into the target slot only after that setter succeeds; if the
pointee setter fails, the decode fails and the pointer slot is returned
unchanged — a half-initialized pointee is never installed. -/
theorem makeSetPointer_no_partial_install
    (d : Decoder) (cache : List (Nat × SetterD)) (fuel : Nat)
    (pz : Value) (ps : SetterD) (src : Source) (tgt : Value) :
    (∀ env auxFuel st ty s2 st2,
      makeSetPointer d env auxFuel fuel st ty = .ok (s2, st2) →
      ∃ ps2 pz2, s2 = .sPtr pz2 ps2 ∧ zeroValue env auxFuel ty = some pz2 ∧
        setterOf d env auxFuel fuel st ty = .ok (ps2, st2)) ∧
    (∀ pv e, exec d cache fuel ps src pz = (pv, .fail e) →
      exec d cache fuel (.sPtr pz ps) src tgt = (tgt, .fail e)) ∧
    (∀ pv, exec d cache fuel ps src pz = (pv, .done) →
      exec d cache fuel (.sPtr pz ps) src tgt = (.vPtr (some pv), .done)) := by
  refine ⟨?_, ?_, ?_⟩
  · intro env auxFuel st ty s2 st2 h
    rw [makeSetPointer] at h
    rcases hs : setterOf d env auxFuel fuel st ty with e | ⟨ps2, st2'⟩
    · rw [hs] at h
      exact absurd h (by simp)
    · rw [hs] at h
      rcases hz : zeroValue env auxFuel ty with _ | pz2
      · rw [hz] at h
        exact absurd h (by simp)
      · rw [hz] at h
        simp only [Except.ok.injEq, Prod.mk.injEq] at h
        refine ⟨ps2, pz2, h.1.symm, rfl, ?_⟩
        rw [h.2]
  · intro pv e h
    rw [exec]
    simp [h]
  · intro pv h
    rw [exec]
    simp [h]

/-- The `witness` companion of `makeSetPointer_no_partial_install`. -/
theorem makeSetPointer_no_partial_install_witness :
    exec NewDecoder [] 5 (.sPtr (.vString "") .sString) (strSrc "hi") (.vPtr none) =
      (.vPtr (some (.vString "hi")), .done) ∧
    exec NewDecoder [] 5 (.sPtr (.vString "") .sString) emptySrc (.vPtr none) =
      (.vPtr none, .fail (.wrap "get string value" .notSupported)) := by
  constructor
  · exact (makeSetPointer_no_partial_install NewDecoder [] 5 (.vString "") .sString
      (strSrc "hi") (.vPtr none)).2.2 (.vString "hi") (by rw [exec]; simp [strSrc, srcString])
  · exact (makeSetPointer_no_partial_install NewDecoder [] 5 (.vString "") .sString
      emptySrc (.vPtr none)).2.1 (.vString "") (.wrap "get string value" .notSupported)
      (by rw [exec]; simp [emptySrc, srcString])

/-- The array element loop only ever reads the first `n - idx` pending
elements: the rest of the (single-pass, lazily pulled) iterator is left
undrained. -/
theorem execArrayLoop_take (d : Decoder) (cache : List (Nat × SetterD))
    (fuel : Nat) (es : SetterD) :
    ∀ (srcs : List Source) (idx n : Nat) (l : List Value),
    execArrayLoop d cache fuel es srcs idx n l =
      execArrayLoop d cache fuel es (srcs.take (n - idx)) idx n l := by
  intro srcs
  induction srcs with
  | nil => intro idx n l; simp
  | cons e rest ih =>
    intro idx n l
    by_cases hlt : idx < n
    · have hpos : 0 < n - idx := by omega
      obtain ⟨m, hm⟩ : ∃ m, n - idx = m + 1 := ⟨n - idx - 1, by omega⟩
      rw [hm, List.take_succ_cons, execArrayLoop, execArrayLoop]
      simp only [hlt, if_true]
      rcases exec d cache fuel es e (l.getD idx (.vBool false)) with ⟨v2, out⟩
      cases out with
      | done =>
        dsimp only
        have h2 : n - (idx + 1) = m := by omega
        rw [ih (idx + 1) n (l.set idx v2), h2]
      | fail er => rfl
      | outOfFuel => rfl
    · rw [execArrayLoop]
      have : n - idx = 0 := by omega
      rw [this, List.take_zero, execArrayLoop]
      simp [hlt]

/-- Positions at or beyond `idx + srcs.length` of the array are never
written by the element loop (regardless of outcome). -/
theorem execArrayLoop_tail_untouched (d : Decoder) (cache : List (Nat × SetterD))
    (fuel : Nat) (es : SetterD) :
    ∀ (srcs : List Source) (idx n : Nat) (l : List Value) (j : Nat),
    idx + srcs.length ≤ j →
    ((execArrayLoop d cache fuel es srcs idx n l).1).get? j = l.get? j := by
  intro srcs
  induction srcs with
  | nil => intro idx n l j _; simp [execArrayLoop]
  | cons e rest ih =>
    intro idx n l j hj
    simp only [List.length_cons] at hj
    rw [execArrayLoop]
    by_cases hlt : idx < n
    · simp only [hlt, if_true]
      rcases exec d cache fuel es e (l.getD idx (.vBool false)) with ⟨v2, out⟩
      have hne : idx ≠ j := by omega
      cases out with
      | done =>
        dsimp only
        rw [ih (idx + 1) n (l.set idx v2) j (by omega)]
        exact List.get?_set_ne _ _ hne
      | fail er => exact List.get?_set_ne _ _ hne
      | outOfFuel => exact List.get?_set_ne _ _ hne
    · simp [hlt]

/-- **C7**: a fixed-length-array setter of length `n` consumes at most `n`
elements from `Iter()`: its result only depends on the first `n` yielded
elements (extra ones are ignored/undrained), and when fewer than `n`
elements are yielded the remaining slots are left untouched (at their zero
value for a fresh target). -/
theorem makeSetArray_consumes_at_most_n
    (d : Decoder) (cache : List (Nat × SetterD)) (fuel : Nat) (es : SetterD)
    (n : Nat) (src src' : Source) (srcs : List Source) (tgt : Value) (l : List Value) :
    (srcIter src = .ok srcs → srcIter src' = .ok (srcs.take n) →
      exec d cache fuel (.sArray n es) src tgt =
        exec d cache fuel (.sArray n es) src' tgt) ∧
    (srcIter src = .ok srcs → tgt = .vArray l →
      ∃ l2 out2, exec d cache fuel (.sArray n es) src tgt = (.vArray l2, out2) ∧
        ∀ j, srcs.length ≤ j → l2.get? j = l.get? j) := by
  constructor
  · intro h h'
    rw [exec, exec, h, h']
    cases tgt with
    | vArray l0 =>
      simp only
      rw [execArrayLoop_take d cache fuel es srcs 0 n l0]
      simp
    | vBool b => simp
    | vInt i => simp
    | vUint u => simp
    | vFloat f => simp
    | vString s => simp
    | vPtr p => simp
    | vStruct fs => simp
    | vSlice sl => simp
    | vMap m => simp
    | vOther => simp
  · intro h ht
    subst ht
    rw [exec, h]
    simp only
    rcases hr : execArrayLoop d cache fuel es srcs 0 n l with ⟨l2, out2⟩
    refine ⟨l2, out2, rfl, ?_⟩
    intro j hj
    have := execArrayLoop_tail_untouched d cache fuel es srcs 0 n l j (by omega)
    rw [hr] at this
    exact this

/-- The `witness` companion of `makeSetArray_consumes_at_most_n`: the
spec's examples — a length-2 array from `["first","second","third"]`
yields `["first","second"]` (third element undrained), and a length-4
array yields `["first","second","third",""]` (tail at zero value). -/
theorem makeSetArray_consumes_at_most_n_witness :
    (exec NewDecoder [] 5 (.sArray 2 .sString)
        (seqSrc [strSrc "first", strSrc "second", strSrc "third"])
        (.vArray [.vString "", .vString ""]) =
      exec NewDecoder [] 5 (.sArray 2 .sString)
        (seqSrc [strSrc "first", strSrc "second"])
        (.vArray [.vString "", .vString ""])) ∧
    (exec NewDecoder [] 5 (.sArray 2 .sString)
        (seqSrc [strSrc "first", strSrc "second", strSrc "third"])
        (.vArray [.vString "", .vString ""]) =
      (.vArray [.vString "first", .vString "second"], .done)) ∧
    (exec NewDecoder [] 5 (.sArray 4 .sString)
        (seqSrc [strSrc "first", strSrc "second", strSrc "third"])
        (.vArray [.vString "", .vString "", .vString "", .vString ""]) =
      (.vArray [.vString "first", .vString "second", .vString "third", .vString ""], .done)) := by
  refine ⟨?_, ?_, ?_⟩
  · exact (makeSetArray_consumes_at_most_n NewDecoder [] 5 .sString 2
      (seqSrc [strSrc "first", strSrc "second", strSrc "third"])
      (seqSrc [strSrc "first", strSrc "second"])
      [strSrc "first", strSrc "second", strSrc "third"]
      (.vArray [.vString "", .vString ""]) []).1
      (by simp [seqSrc, srcIter]) (by simp [seqSrc, srcIter])
  · rw [exec]
    simp only [seqSrc, srcIter]
    rw [execArrayLoop]; rw [exec]
    simp only [strSrc, srcString, srcBinary]
    rw [execArrayLoop]; rw [exec]
    simp only [strSrc, srcString, srcBinary]
    rw [execArrayLoop]
    simp
  · rw [exec]
    simp only [seqSrc, srcIter]
    rw [execArrayLoop]; rw [exec]
    simp only [strSrc, srcString, srcBinary]
    rw [execArrayLoop]; rw [exec]
    simp only [strSrc, srcString, srcBinary]
    rw [execArrayLoop]; rw [exec]
    simp only [strSrc, srcString, srcBinary]
    rw [execArrayLoop]
    simp

/-- The slice element loop processes a concatenation sequentially: the
second part runs from the state the first part produced, and any failure
in the first part is final. -/
theorem execSliceLoop_append (d : Decoder) (cache : List (Nat × SetterD))
    (fuel : Nat) (es : SetterD) (ph : Value) :
    ∀ (as bs : List Source) (l : List Value),
    execSliceLoop d cache fuel es ph (as ++ bs) l =
      match execSliceLoop d cache fuel es ph as l with
      | (l1, .done) => execSliceLoop d cache fuel es ph bs l1
      | r => r := by
  intro as
  induction as with
  | nil => intro bs l; rw [execSliceLoop]; rfl
  | cons e rest ih =>
    intro bs l
    rw [List.cons_append, execSliceLoop, execSliceLoop]
    rcases exec d cache fuel es e ph with ⟨v2, out⟩
    cases out with
    | done => exact ih bs (l ++ [v2])
    | fail er => rfl
    | outOfFuel => rfl

/-- The slice element loop only ever appends: the input slice contents are
a prefix of the output, whatever the outcome. -/
theorem execSliceLoop_extends (d : Decoder) (cache : List (Nat × SetterD))
    (fuel : Nat) (es : SetterD) (ph : Value) :
    ∀ (srcs : List Source) (l : List Value),
    ∃ vs, (execSliceLoop d cache fuel es ph srcs l).1 = l ++ vs := by
  intro srcs
  induction srcs with
  | nil => intro l; exact ⟨[], by simp [execSliceLoop]⟩
  | cons e rest ih =>
    intro l
    rw [execSliceLoop]
    rcases exec d cache fuel es e ph with ⟨v2, out⟩
    cases out with
    | done =>
      obtain ⟨vs, hvs⟩ := ih (l ++ [v2])
      exact ⟨[v2] ++ vs, by simpa using hvs⟩
    | fail er => exact ⟨[v2], rfl⟩
    | outOfFuel => exact ⟨[v2], rfl⟩

/-- **C8**: the slice setter appends a fresh zero element and decodes into
it, one source element at a time; if element `i` fails, the decode fails
(with the element error wrapped) but the target slice retains every
successfully decoded element before `i` — the original contents and the
decoded prefix stay committed, with the failed element's partial value in
the last slot. -/
theorem makeSetSlice_partial_commit
    (d : Decoder) (cache : List (Nat × SetterD)) (fuel : Nat) (es : SetterD)
    (ph : Value) (src : Source) (es1 es2 : List Source) (e : Source)
    (l l1 : List Value) (ev : Value) (er : DErr)
    (hiter : srcIter src = .ok (es1 ++ e :: es2))
    (hok : execSliceLoop d cache fuel es ph es1 l = (l1, .done))
    (hfail : exec d cache fuel es e ph = (ev, .fail er)) :
    exec d cache fuel (.sSlice ph es) src (.vSlice l) =
      (.vSlice (l1 ++ [ev]), .fail (.wrap "set element" er)) ∧
    ∃ vs, l1 = l ++ vs := by
  constructor
  · rw [exec, hiter]
    simp only
    rw [execSliceLoop_append, hok]
    dsimp only
    rw [execSliceLoop.eq_def]
    simp [hfail]
  · obtain ⟨vs, hvs⟩ := execSliceLoop_extends d cache fuel es ph es1 l
    rw [hok] at hvs
    exact ⟨vs, hvs⟩

/-- The `witness` companion of `makeSetSlice_partial_commit`: decoding
`["10", not-a-value, ...]` into an int slice fails on element 1 but keeps
element 0. -/
theorem makeSetSlice_partial_commit_witness :
    exec NewDecoder [] 5 (.sSlice (.vInt 0) (.sInt .b64 minInt64 maxInt64))
      (seqSrc [intSrc 10, emptySrc, intSrc 3]) (.vSlice []) =
      (.vSlice [.vInt 10, .vInt 0],
        .fail (.wrap "set element" (.wrap "get int value" .notSupported))) := by
  have h := makeSetSlice_partial_commit NewDecoder [] 5 (.sInt .b64 minInt64 maxInt64)
    (.vInt 0) (seqSrc [intSrc 10, emptySrc, intSrc 3]) [intSrc 10] [intSrc 3] emptySrc
    [] [.vInt 10] (.vInt 0) (.wrap "get int value" .notSupported)
    (by simp [seqSrc, srcIter])
    (by
      rw [execSliceLoop.eq_def]
      dsimp only
      rw [exec]
      simp only [intSrc, srcBinary, srcInt]
      norm_num [minInt64, maxInt64]
      rw [execSliceLoop.eq_def])
    (by
      rw [exec]
      simp [emptySrc, srcBinary, srcInt])
  exact h.1

/-- Reference decoding of the key/value pairs: `some` of the decoded pairs
when every key and value decodes, `none` as soon as any decode fails (or
runs out of fuel). -/
def decodePairs (d : Decoder) (cache : List (Nat × SetterD)) (fuel : Nat)
    (ks vs : SetterD) (kz vz : Value) :
    List (Source × Source) → Option (List (Value × Value))
  | [] => some []
  | (ksrc, vsrc) :: rest =>
    match exec d cache fuel ks ksrc kz, exec d cache fuel vs vsrc vz with
    | (kv, .done), (vv, .done) =>
      (decodePairs d cache fuel ks vs kz vz rest).map (fun l => (kv, vv) :: l)
    | _, _ => none

/-- The pair loop succeeds exactly when `decodePairs` does, in which case
it folds the decoded pairs into the accumulator via `SetMapIndex`; any
failure aborts with a non-`done` outcome. -/
theorem execMapLoop_spec (d : Decoder) (cache : List (Nat × SetterD))
    (fuel : Nat) (ks vs : SetterD) (kz vz : Value) :
    ∀ (pairs : List (Source × Source)) (acc : List (Value × Value)),
    (∀ l, decodePairs d cache fuel ks vs kz vz pairs = some l →
      execMapLoop d cache fuel ks vs kz vz pairs acc =
        .ok (l.foldl (fun m p => mapSetIndex m p.1 p.2) acc)) ∧
    (decodePairs d cache fuel ks vs kz vz pairs = none →
      ∃ out, execMapLoop d cache fuel ks vs kz vz pairs acc = .error out ∧
        out ≠ .done) := by
  intro pairs
  induction pairs with
  | nil =>
    intro acc
    constructor
    · intro l hl
      simp only [decodePairs, Option.some.injEq] at hl
      subst hl
      rw [execMapLoop]
      rfl
    · intro h
      simp [decodePairs] at h
  | cons p rest ih =>
    intro acc
    rcases p with ⟨ksrc, vsrc⟩
    constructor
    · intro l hl
      rw [decodePairs] at hl
      rcases hk : exec d cache fuel ks ksrc kz with ⟨kv, kout⟩
      rcases hv : exec d cache fuel vs vsrc vz with ⟨vv, vout⟩
      rw [hk, hv] at hl
      cases kout with
      | done =>
        cases vout with
        | done =>
          simp only [Option.map_eq_some'] at hl
          obtain ⟨l0, hl0, hl0eq⟩ := hl
          subst hl0eq
          rw [execMapLoop, hk, hv]
          dsimp only
          rw [(ih (mapSetIndex acc kv vv)).1 l0 hl0]
          rfl
        | fail e => simp at hl
        | outOfFuel => simp at hl
      | fail e => cases vout <;> simp at hl
      | outOfFuel => cases vout <;> simp at hl
    · intro h
      rw [decodePairs] at h
      rcases hk : exec d cache fuel ks ksrc kz with ⟨kv, kout⟩
      rcases hv : exec d cache fuel vs vsrc vz with ⟨vv, vout⟩
      rw [hk, hv] at h
      rw [execMapLoop, hk, hv]
      cases kout with
      | done =>
        cases vout with
        | done =>
          simp only [Option.map_eq_none'] at h
          dsimp only
          exact (ih (mapSetIndex acc kv vv)).2 h
        | fail e => exact ⟨.fail (.wrap "set key" e), rfl, by simp⟩
        | outOfFuel => exact ⟨.outOfFuel, rfl, by simp⟩
      | fail e =>
        cases vout with
        | done => exact ⟨.fail (.wrap "set key" e), rfl, by simp⟩
        | fail e2 => exact ⟨.fail (.wrap "set key" e), rfl, by simp⟩
        | outOfFuel => exact ⟨.fail (.wrap "set key" e), rfl, by simp⟩
      | outOfFuel =>
        cases vout with
        | done => exact ⟨.outOfFuel, rfl, by simp⟩
        | fail e2 => exact ⟨.outOfFuel, rfl, by simp⟩
        | outOfFuel => exact ⟨.outOfFuel, rfl, by simp⟩

/-- **C10**: the map setter decodes every key/value pair yielded by
`KeyValues()` into a freshly created map and assigns it to the target slot
only after every pair decoded; if `KeyValues()` or any key or value decode
fails, the target slot is returned unchanged; on success the target holds
exactly the decoded pairs (folded through `SetMapIndex` into the fresh
map), regardless of the slot's prior contents. -/
theorem makeSetMap_fresh_map_atomic_assign
    (d : Decoder) (cache : List (Nat × SetterD)) (fuel : Nat)
    (ks vs : SetterD) (kz vz : Value) (src : Source) (tgt : Value) :
    (∀ e, srcKeyValues src = .error e →
      exec d cache fuel (.sMap kz vz ks vs) src tgt =
        (tgt, .fail (.wrap "iterate key/value pairs" e))) ∧
    (∀ pairs l, srcKeyValues src = .ok pairs →
      decodePairs d cache fuel ks vs kz vz pairs = some l →
      exec d cache fuel (.sMap kz vz ks vs) src tgt =
        (.vMap (l.foldl (fun m p => mapSetIndex m p.1 p.2) []), .done)) ∧
    (∀ pairs, srcKeyValues src = .ok pairs →
      decodePairs d cache fuel ks vs kz vz pairs = none →
      (exec d cache fuel (.sMap kz vz ks vs) src tgt).1 = tgt ∧
      (exec d cache fuel (.sMap kz vz ks vs) src tgt).2 ≠ .done) := by
  refine ⟨?_, ?_, ?_⟩
  · intro e h
    rw [exec, h]
  · intro pairs l h hl
    rw [exec, h]
    dsimp only
    rw [(execMapLoop_spec d cache fuel ks vs kz vz pairs []).1 l hl]
  · intro pairs h hl
    obtain ⟨out, hout, hne⟩ := (execMapLoop_spec d cache fuel ks vs kz vz pairs []).2 hl
    rw [exec, h]
    dsimp only
    rw [hout]
    cases out with
    | done => exact absurd rfl hne
    | fail e => exact ⟨rfl, by simp⟩
    | outOfFuel => exact ⟨rfl, by simp⟩

/-- The `witness` companion of `makeSetMap_fresh_map_atomic_assign`:
decoding one string pair replaces the prior contents of the target slot
with exactly that pair, and a failing value decode leaves the slot's prior
contents in place. -/
theorem makeSetMap_fresh_map_atomic_assign_witness :
    (exec NewDecoder [] 5 (.sMap (.vString "") (.vString "") .sString .sString)
      (.mk (.error .notSupported) (.error .notSupported) (.error .notSupported)
        (.error .notSupported) (.error .notSupported) true [] [] none
        [(strSrc "k", strSrc "v")] (some .notSupported) [] none)
      (.vMap [(.vString "old", .vString "contents")]) =
      (.vMap [(.vString "k", .vString "v")], .done)) ∧
    (exec NewDecoder [] 5 (.sMap (.vString "") (.vString "") .sString .sString)
      (.mk (.error .notSupported) (.error .notSupported) (.error .notSupported)
        (.error .notSupported) (.error .notSupported) true [] [] none
        [(strSrc "k", emptySrc)] (some .notSupported) [] none)
      (.vMap [(.vString "old", .vString "contents")])).1 =
      .vMap [(.vString "old", .vString "contents")] := by
  constructor
  · exact (makeSetMap_fresh_map_atomic_assign NewDecoder [] 5 .sString .sString
      (.vString "") (.vString "") _ _).2.1 [(strSrc "k", strSrc "v")]
      [(.vString "k", .vString "v")] (by simp [srcKeyValues])
      (by
        rw [decodePairs]
        rw [exec]
        simp only [strSrc, srcString]
        rw [exec]
        simp only [strSrc, srcString]
        rw [decodePairs]
        rfl)
  · exact ((makeSetMap_fresh_map_atomic_assign NewDecoder [] 5 .sString .sString
      (.vString "") (.vString "") _ _).2.2 [(strSrc "k", emptySrc)]
      (by simp [srcKeyValues])
      (by
        rw [decodePairs]
        rw [exec]
        simp only [strSrc, srcString]
        rw [exec]
        simp [emptySrc, srcString])).1

/-- The struct field loop processes a concatenation sequentially: the
second part runs against the target state the first part produced, and a
failure in the first part is final. -/
theorem execFields_append (d : Decoder) (cache : List (Nat × SetterD))
    (fuel : Nat) (src : Source) :
    ∀ (fs1 fs2 : List (String × List Nat × SetterD)) (tgt : Value),
    execFields d cache fuel (fs1 ++ fs2) src tgt =
      match execFields d cache fuel fs1 src tgt with
      | (t1, .done) => execFields d cache fuel fs2 src t1
      | r => r := by
  intro fs1
  induction fs1 with
  | nil => intro fs2 tgt; rw [execFields]; rfl
  | cons f rest ih =>
    intro fs2 tgt
    rcases f with ⟨name, index, s⟩
    rw [List.cons_append, execFields.eq_def]
    conv_rhs => rw [execFields.eq_def]
    dsimp only
    rcases srcGet src name with e | fieldSource
    · dsimp only
      by_cases hnv : e.isNoValue
      · simp only [hnv, if_true]
        by_cases hrv : d.requireValues
        · simp [hrv]
        · simp only [hrv, if_false]
          exact ih fs2 tgt
      · simp [hnv]
    · dsimp only
      rcases getAtIndex tgt index with _ | fv
      · rfl
      · dsimp only
        rcases exec d cache fuel s fieldSource fv with ⟨fv2, out⟩
        cases out with
        | done => exact ih fs2 (putAtIndex tgt index fv2)
        | fail e2 => rfl
        | outOfFuel => rfl

/-- **C2**: for a struct setter, when `Get(name)` for a resolved field
fails with an error matching `ErrNoValue`, the field is skipped (the
target state passes through unchanged and decoding continues with the
remaining fields) unless require-values is set, in which case the whole
decode fails with an error that still matches `ErrNoValue`; any other
`Get` error aborts the decode with that error wrapped. The field is taken
at an arbitrary position: the fields before it (`fs1`) are assumed to have
decoded successfully, producing target state `t1`. -/
theorem makeSetStruct_novalue_skip_or_fail
    (d : Decoder) (cache : List (Nat × SetterD)) (fuel : Nat)
    (fs1 rest : List (String × List Nat × SetterD)) (name : String)
    (index : List Nat) (s : SetterD) (src : Source) (tgt t1 : Value) (e : DErr)
    (hprev : execFields d cache fuel fs1 src tgt = (t1, .done))
    (hget : srcGet src name = .error e) :
    (e.isNoValue = true → d.requireValues = false →
      execFields d cache fuel (fs1 ++ (name, index, s) :: rest) src tgt =
        execFields d cache fuel rest src t1) ∧
    (e.isNoValue = true → d.requireValues = true →
      execFields d cache fuel (fs1 ++ (name, index, s) :: rest) src tgt =
        (t1, .fail (.wrap ("field " ++ name) e)) ∧
      DErr.isNoValue (.wrap ("field " ++ name) e) = true) ∧
    (e.isNoValue = false →
      execFields d cache fuel (fs1 ++ (name, index, s) :: rest) src tgt =
        (t1, .fail (.wrap ("lookup child " ++ name) e))) := by
  have hsplit := execFields_append d cache fuel src fs1 ((name, index, s) :: rest) tgt
  rw [hprev] at hsplit
  dsimp only at hsplit
  refine ⟨?_, ?_, ?_⟩
  · intro hnv hrv
    rw [hsplit, execFields.eq_def]
    dsimp only
    rw [hget]
    simp [hnv, hrv]
  · intro hnv hrv
    constructor
    · rw [hsplit, execFields.eq_def]
      dsimp only
      rw [hget]
      simp [hnv, hrv]
    · simp [DErr.isNoValue, hnv]
  · intro hnv
    rw [hsplit, execFields.eq_def]
    dsimp only
    rw [hget]
    simp [hnv]

/-- The `witness` companion of `makeSetStruct_novalue_skip_or_fail`: the
spec's example — target `struct{ Foo string }` and a source without `Foo`:
require-values off leaves `Foo` at its zero value and succeeds;
require-values on fails with an error matching `ErrNoValue`. -/
theorem makeSetStruct_novalue_skip_or_fail_witness :
    (execFields NewDecoder [] 5 [("Foo", [0], .sString)] (objSrc [])
        (.vStruct [.vString ""]) = (.vStruct [.vString ""], .done)) ∧
    (execFields (NewDecoder.RequireValues) [] 5 [("Foo", [0], .sString)] (objSrc [])
        (.vStruct [.vString ""]) =
      (.vStruct [.vString ""], .fail (.wrap "field Foo" .noValue)) ∧
      DErr.isNoValue (.wrap "field Foo" .noValue) = true) := by
  constructor
  · have h := (makeSetStruct_novalue_skip_or_fail NewDecoder [] 5 [] []
      "Foo" [0] .sString (objSrc []) (.vStruct [.vString ""]) (.vStruct [.vString ""])
      .noValue (by rw [execFields]) (by simp [objSrc, srcGet])).1 (by decide) (by decide)
    simpa [execFields] using h
  · have h := (makeSetStruct_novalue_skip_or_fail NewDecoder.RequireValues [] 5 [] []
      "Foo" [0] .sString (objSrc []) (.vStruct [.vString ""]) (.vStruct [.vString ""])
      .noValue (by rw [execFields]) (by simp [objSrc, srcGet])).2.1 (by decide) (by decide)
    simpa using h

/-- The claim's "target width's representable range" for the signed
integer kinds (64-bit platform, so `int` has the 64-bit range). -/
def intKindBounds : TyDef → Option (Int × Int)
  | .dInt => some (-(2 ^ 63), 2 ^ 63 - 1)
  | .dInt8 => some (-(2 ^ 7), 2 ^ 7 - 1)
  | .dInt16 => some (-(2 ^ 15), 2 ^ 15 - 1)
  | .dInt32 => some (-(2 ^ 31), 2 ^ 31 - 1)
  | .dInt64 => some (-(2 ^ 63), 2 ^ 63 - 1)
  | _ => none

/-- The claim's "target width's representable range" for the unsigned
integer kinds (64-bit platform, so `uint` has the 64-bit range). -/
def uintKindMax : TyDef → Option Nat
  | .dUint => some (2 ^ 64 - 1)
  | .dUint8 => some (2 ^ 8 - 1)
  | .dUint16 => some (2 ^ 16 - 1)
  | .dUint32 => some (2 ^ 32 - 1)
  | .dUint64 => some (2 ^ 64 - 1)
  | _ => none

/-- Generic-`Int()` fallback behaviour of a compiled signed setter. -/
theorem exec_sInt_fallback (d : Decoder) (cache : List (Nat × SetterD))
    (fuel : Nat) (sel : BinIntSel) (mn mx : Int) (src : Source) (tgt : Value)
    (v : Int) (hb : srcBinary src = none) (hi : srcInt src = .ok v) :
    ((v < mn ∨ mx < v) →
      exec d cache fuel (.sInt sel mn mx) src tgt =
        (tgt, .fail (.wrap "invalid value" .rangeErr))) ∧
    (mn ≤ v → v ≤ mx →
      exec d cache fuel (.sInt sel mn mx) src tgt = (.vInt v, .done)) := by
  constructor
  · intro hout
    rw [exec, hb, hi]
    rcases hout with hlt | hgt
    · simp [hlt]
    · by_cases hlt : v < mn
      · simp [hlt]
      · have h2 : v > mx := hgt
        simp [hlt, h2]
  · intro h1 h2
    rw [exec, hb, hi]
    have h1' : ¬ v < mn := by omega
    have h2' : ¬ v > mx := by omega
    simp [h1', h2']

/-- Generic-`Uint()` fallback behaviour of a compiled unsigned setter. -/
theorem exec_sUint_fallback (d : Decoder) (cache : List (Nat × SetterD))
    (fuel : Nat) (sel : BinUintSel) (mx : Nat) (src : Source) (tgt : Value)
    (v : Nat) (hb : srcBinary src = none) (hi : srcUint src = .ok v) :
    (mx < v →
      exec d cache fuel (.sUint sel mx) src tgt =
        (tgt, .fail (.wrap "invalid value" .rangeErr))) ∧
    (v ≤ mx →
      exec d cache fuel (.sUint sel mx) src tgt = (.vUint v, .done)) := by
  constructor
  · intro hgt
    rw [exec, hb, hi]
    have h2 : v > mx := by omega
    simp [h2]
  · intro h1
    rw [exec, hb, hi]
    have h1' : ¬ v > mx := by omega
    simp [h1']

/-- **C3**: for every signed or unsigned integer target kind, the compiled
setter carries exactly the kind's representable range, and against a
source that does not implement `BinarySource` it falls back to the generic
`Int()`/`Uint()` method: a returned value outside the range fails with an
error matching `strconv.ErrRange` and leaves the target unchanged, while a
value within the range — the bounds included — is stored exactly. -/
theorem makeSetInt_uint_range_check
    (d : Decoder) (env : TyEnv) (auxFuel fuel : Nat) (st : CState) (ty : Nat) :
    (∀ mn mx, intKindBounds (envTy env ty) = some (mn, mx) →
      ∃ sel, makeSetterOf d env auxFuel fuel st ty = .ok (.sInt sel mn mx, st) ∧
        ∀ (cache : List (Nat × SetterD)) (fuel2 : Nat) (src : Source)
          (tgt : Value) (v : Int),
          srcBinary src = none → srcInt src = .ok v →
          ((v < mn ∨ mx < v) →
            exec d cache fuel2 (.sInt sel mn mx) src tgt =
              (tgt, .fail (.wrap "invalid value" .rangeErr)) ∧
            DErr.isRange (.wrap "invalid value" .rangeErr) = true) ∧
          (mn ≤ v → v ≤ mx →
            exec d cache fuel2 (.sInt sel mn mx) src tgt = (.vInt v, .done))) ∧
    (∀ mx, uintKindMax (envTy env ty) = some mx →
      ∃ sel, makeSetterOf d env auxFuel fuel st ty = .ok (.sUint sel mx, st) ∧
        ∀ (cache : List (Nat × SetterD)) (fuel2 : Nat) (src : Source)
          (tgt : Value) (v : Nat),
          srcBinary src = none → srcUint src = .ok v →
          (mx < v →
            exec d cache fuel2 (.sUint sel mx) src tgt =
              (tgt, .fail (.wrap "invalid value" .rangeErr)) ∧
            DErr.isRange (.wrap "invalid value" .rangeErr) = true) ∧
          (v ≤ mx →
            exec d cache fuel2 (.sUint sel mx) src tgt = (.vUint v, .done))) := by
  constructor
  · intro mn mx hb
    have main : ∀ sel, ∀ (cache : List (Nat × SetterD)) (fuel2 : Nat) (src : Source)
        (tgt : Value) (v : Int),
        srcBinary src = none → srcInt src = .ok v →
        ((v < mn ∨ mx < v) →
          exec d cache fuel2 (.sInt sel mn mx) src tgt =
            (tgt, .fail (.wrap "invalid value" .rangeErr)) ∧
          DErr.isRange (.wrap "invalid value" .rangeErr) = true) ∧
        (mn ≤ v → v ≤ mx →
          exec d cache fuel2 (.sInt sel mn mx) src tgt = (.vInt v, .done)) := by
      intro sel cache fuel2 src tgt v hsb hsi
      have h := exec_sInt_fallback d cache fuel2 sel mn mx src tgt v hsb hsi
      exact ⟨fun ho => ⟨h.1 ho, by simp [DErr.isRange]⟩, h.2⟩
    cases h : envTy env ty <;> rw [h] at hb <;> simp only [intKindBounds] at hb <;>
      try exact Option.noConfusion hb
    case dInt =>
      refine ⟨.b64, ?_, main .b64⟩
      rw [makeSetterOf, h]
      simp only [Option.some.injEq, Prod.mk.injEq] at hb
      rw [← hb.1, ← hb.2]
      rfl
    case dInt8 =>
      refine ⟨.b8, ?_, main .b8⟩
      rw [makeSetterOf, h]
      simp only [Option.some.injEq, Prod.mk.injEq] at hb
      rw [← hb.1, ← hb.2]
      norm_num
    case dInt16 =>
      refine ⟨.b16, ?_, main .b16⟩
      rw [makeSetterOf, h]
      simp only [Option.some.injEq, Prod.mk.injEq] at hb
      rw [← hb.1, ← hb.2]
      norm_num
    case dInt32 =>
      refine ⟨.b32, ?_, main .b32⟩
      rw [makeSetterOf, h]
      simp only [Option.some.injEq, Prod.mk.injEq] at hb
      rw [← hb.1, ← hb.2]
      norm_num
    case dInt64 =>
      refine ⟨.b64, ?_, main .b64⟩
      rw [makeSetterOf, h]
      simp only [Option.some.injEq, Prod.mk.injEq] at hb
      rw [← hb.1, ← hb.2]
      rfl
  · intro mx hb
    have main : ∀ sel, ∀ (cache : List (Nat × SetterD)) (fuel2 : Nat) (src : Source)
        (tgt : Value) (v : Nat),
        srcBinary src = none → srcUint src = .ok v →
        (mx < v →
          exec d cache fuel2 (.sUint sel mx) src tgt =
            (tgt, .fail (.wrap "invalid value" .rangeErr)) ∧
          DErr.isRange (.wrap "invalid value" .rangeErr) = true) ∧
        (v ≤ mx →
          exec d cache fuel2 (.sUint sel mx) src tgt = (.vUint v, .done)) := by
      intro sel cache fuel2 src tgt v hsb hsi
      have h := exec_sUint_fallback d cache fuel2 sel mx src tgt v hsb hsi
      exact ⟨fun ho => ⟨h.1 ho, by simp [DErr.isRange]⟩, h.2⟩
    cases h : envTy env ty <;> rw [h] at hb <;> simp only [uintKindMax] at hb <;>
      try exact Option.noConfusion hb
    case dUint =>
      refine ⟨.u64, ?_, main .u64⟩
      rw [makeSetterOf, h]
      simp only [Option.some.injEq] at hb
      rw [← hb]
      rfl
    case dUint8 =>
      refine ⟨.u8, ?_, main .u8⟩
      rw [makeSetterOf, h]
      simp only [Option.some.injEq] at hb
      rw [← hb]
      norm_num
    case dUint16 =>
      refine ⟨.u16, ?_, main .u16⟩
      rw [makeSetterOf, h]
      simp only [Option.some.injEq] at hb
      rw [← hb]
      norm_num
    case dUint32 =>
      refine ⟨.u32, ?_, main .u32⟩
      rw [makeSetterOf, h]
      simp only [Option.some.injEq] at hb
      rw [← hb]
      norm_num
    case dUint64 =>
      refine ⟨.u64, ?_, main .u64⟩
      rw [makeSetterOf, h]
      simp only [Option.some.injEq] at hb
      rw [← hb]
      rfl

/-- The `witness` companion of `makeSetInt_uint_range_check`: for an
`int8` target and a plain (non-`BinarySource`) source, `-129` and `256`
fail with `Range`, while the exact bounds `-128` and `127` round-trip; a
`uint8` target accepts `255` and rejects `256`. -/
theorem makeSetInt_uint_range_check_witness :
    (exec NewDecoder [] 5 (.sInt .b8 (-128) 127) (intSrc (-129)) (.vInt 0) =
      (.vInt 0, .fail (.wrap "invalid value" .rangeErr))) ∧
    (exec NewDecoder [] 5 (.sInt .b8 (-128) 127) (intSrc (-128)) (.vInt 0) =
      (.vInt (-128), .done)) ∧
    (exec NewDecoder [] 5 (.sInt .b8 (-128) 127) (intSrc 127) (.vInt 0) =
      (.vInt 127, .done)) ∧
    (exec NewDecoder [] 5 (.sInt .b8 (-128) 127) (intSrc 128) (.vInt 0) =
      (.vInt 0, .fail (.wrap "invalid value" .rangeErr))) ∧
    (exec NewDecoder [] 5 (.sUint .u8 255) (intSrc 255) (.vUint 0) =
      (.vUint 255, .done)) ∧
    (exec NewDecoder [] 5 (.sUint .u8 255) (intSrc 256) (.vUint 0) =
      (.vUint 0, .fail (.wrap "invalid value" .rangeErr))) := by
  have envE : envTy [TyDef.dInt8] 0 = .dInt8 := rfl
  have h := makeSetInt_uint_range_check NewDecoder [TyDef.dInt8] 0 5 ⟨[], []⟩ 0
  obtain ⟨sel, hmk, hbeh⟩ := h.1 (-128) 127 (by rw [envE]; norm_num [intKindBounds])
  have hsel : sel = .b8 := by
    rw [makeSetterOf, envE] at hmk
    norm_num at hmk
    exact hmk.symm
  subst hsel
  have hu := makeSetInt_uint_range_check NewDecoder [TyDef.dUint8] 0 5 ⟨[], []⟩ 0
  obtain ⟨usel, humk, hubeh⟩ := hu.2 255 (by norm_num [envTy, uintKindMax])
  have husel : usel = .u8 := by
    rw [makeSetterOf] at humk
    norm_num [envTy] at humk
    exact humk.symm
  subst husel
  refine ⟨?_, ?_, ?_, ?_, ?_, ?_⟩
  · exact ((hbeh [] 5 (intSrc (-129)) (.vInt 0) (-129) rfl rfl).1 (by norm_num)).1
  · exact (hbeh [] 5 (intSrc (-128)) (.vInt 0) (-128) rfl rfl).2 (by norm_num) (by norm_num)
  · exact (hbeh [] 5 (intSrc 127) (.vInt 0) 127 rfl rfl).2 (by norm_num) (by norm_num)
  · exact ((hbeh [] 5 (intSrc 128) (.vInt 0) 128 rfl rfl).1 (by norm_num)).1
  · exact (hubeh [] 5 (intSrc 255) (.vUint 0) 255 rfl rfl).2 (by norm_num)
  · exact ((hubeh [] 5 (intSrc 256) (.vUint 0) 256 rfl rfl).1 (by norm_num)).1

/-- `commaSplit` finds nothing in a comma-free string. -/
theorem commaSplit_no_comma : ∀ cs : List Char, ',' ∉ cs → commaSplit cs = none := by
  intro cs
  induction cs with
  | nil => intro _; rfl
  | cons c rest ih =>
    intro h
    rw [commaSplit]
    have hc : ¬ c = ',' := fun hc => h (hc ▸ List.mem_cons_self c rest)
    rw [if_neg hc, ih (fun hm => h (List.mem_cons_of_mem c hm))]

/-- `commaSplit` splits at the first comma. -/
theorem commaSplit_append : ∀ (nm opts : List Char), ',' ∉ nm →
    commaSplit (nm ++ ',' :: opts) = some (nm, opts) := by
  intro nm
  induction nm with
  | nil => intro opts _; simp [commaSplit]
  | cons c rest ih =>
    intro opts h
    rw [List.cons_append, commaSplit]
    have hc : ¬ c = ',' := fun hc => h (hc ▸ List.mem_cons_self c rest)
    rw [if_neg hc, ih opts (fun hm => h (List.mem_cons_of_mem c hm))]

/-- A non-empty character list never makes the empty string. -/
theorem strMk_cons_ne_empty (c : Char) (cs : List Char) : String.mk (c :: cs) ≠ "" := by
  intro h
  have := congrArg String.data h
  simp at this

/-- **C9**: for every struct member and tag key, `nameOf` resolves thus: a
tag of exactly `"-"` yields the empty name — which makes the field
resolver skip the member entirely; an absent/empty tag, or an empty name
before the first comma (e.g. `",omitempty"`), resolves to the member's own
name, implicit; otherwise the substring up to the first comma (or the
whole tag) is the resolved name, explicit; the options after the first
comma never influence the result. -/
theorem nameOf_tag_rules (fi : FieldDef) (structTag : String) :
    (tagGet fi.tags structTag = "" → nameOf fi structTag = (fi.fname, false)) ∧
    (tagGet fi.tags structTag = "-" → nameOf fi structTag = ("", true)) ∧
    ((nameOf fi structTag).1 = "" →
      ∀ (env : TyEnv) (parentIndex : List Nat) (rest : List FieldDef)
        (idx : Nat) (order : List String) (cmap : List (String × List Cand)),
        scanFields env structTag parentIndex (fi :: rest) idx order cmap =
          scanFields env structTag parentIndex rest (idx + 1) order cmap) ∧
    (∀ opts, tagGet fi.tags structTag = String.mk (',' :: opts) →
      nameOf fi structTag = (fi.fname, false)) ∧
    (∀ nm opts, nm ≠ [] → ',' ∉ nm →
      tagGet fi.tags structTag = String.mk (nm ++ ',' :: opts) →
      nameOf fi structTag = (String.mk nm, true)) ∧
    (∀ nm, nm ≠ [] → ',' ∉ nm → String.mk nm ≠ "-" →
      tagGet fi.tags structTag = String.mk nm →
      nameOf fi structTag = (String.mk nm, true)) := by
  refine ⟨?_, ?_, ?_, ?_, ?_, ?_⟩
  · intro h
    rw [nameOf, h]
    rfl
  · intro h
    rw [nameOf, h]
    rfl
  · intro h env parentIndex rest idx order cmap
    rw [scanFields]
    by_cases he : fi.exported
    · simp [he, h]
    · simp [he]
  · intro opts h
    rw [nameOf, h]
    have h1 : String.mk (',' :: opts) ≠ "" := strMk_cons_ne_empty _ _
    have h2 : String.mk (',' :: opts) ≠ "-" := by
      intro hx
      have := congrArg String.data hx
      simp at this
    rw [if_neg h1, if_neg h2]
    have : (String.mk (',' :: opts)).toList = ',' :: opts := rfl
    rw [this]
    rw [commaSplit]
    simp
  · intro nm opts hne hnc h
    obtain ⟨c, nm', hnm⟩ := List.exists_cons_of_ne_nil hne
    subst hnm
    rw [nameOf, h]
    have h1 : String.mk ((c :: nm') ++ ',' :: opts) ≠ "" := strMk_cons_ne_empty _ _
    have h2 : String.mk ((c :: nm') ++ ',' :: opts) ≠ "-" := by
      intro hx
      have hd := congrArg String.data hx
      simp only [List.cons_append] at hd
      simp at hd
    rw [if_neg h1, if_neg h2]
    have hl : (String.mk ((c :: nm') ++ ',' :: opts)).toList = (c :: nm') ++ ',' :: opts := rfl
    rw [hl, commaSplit_append (c :: nm') opts hnc]
  · intro nm hne hnc hnd h
    obtain ⟨c, nm', hnm⟩ := List.exists_cons_of_ne_nil hne
    subst hnm
    rw [nameOf, h]
    rw [if_neg (strMk_cons_ne_empty _ _), if_neg hnd]
    have hl : (String.mk (c :: nm')).toList = c :: nm' := rfl
    rw [hl, commaSplit_no_comma _ hnc]

/-- The `witness` companion of `nameOf_tag_rules`, at concrete tags:
no tag, `"-"`, `",omitempty"`, `"age,omitempty"`, and `"age"`. -/
theorem nameOf_tag_rules_witness :
    (nameOf ⟨"Foo", [], false, true, 0⟩ "json" = ("Foo", false)) ∧
    (nameOf ⟨"Foo", [("json", "-")], false, true, 0⟩ "json" = ("", true)) ∧
    (nameOf ⟨"Foo", [("json", ",omitempty")], false, true, 0⟩ "json" = ("Foo", false)) ∧
    (nameOf ⟨"Foo", [("json", "age,omitempty")], false, true, 0⟩ "json" =
      ("age", true)) ∧
    (nameOf ⟨"Foo", [("json", "age")], false, true, 0⟩ "json" = ("age", true)) := by
  refine ⟨?_, ?_, ?_, ?_, ?_⟩
  · exact (nameOf_tag_rules ⟨"Foo", [], false, true, 0⟩ "json").1 (by decide)
  · exact (nameOf_tag_rules ⟨"Foo", [("json", "-")], false, true, 0⟩ "json").2.1 (by decide)
  · exact (nameOf_tag_rules ⟨"Foo", [("json", ",omitempty")], false, true, 0⟩ "json").2.2.2.1
      "omitempty".toList (by decide)
  · exact (nameOf_tag_rules ⟨"Foo", [("json", "age,omitempty")], false, true, 0⟩ "json").2.2.2.2.1
      "age".toList "omitempty".toList (by decide) (by decide) (by decide)
  · exact (nameOf_tag_rules ⟨"Foo", [("json", "age")], false, true, 0⟩ "json").2.2.2.2.2
      "age".toList (by decide) (by decide) (by decide) (by decide)

/-- The compilation state only grows: the in-construction set gains
members and committed cache entries survive unchanged. -/
def StGrows (st st' : CState) : Prop :=
  (∀ k, k ∈ st.inCon → k ∈ st'.inCon) ∧
  (∀ k v, st.cache.lookup k = some v → st'.cache.lookup k = some v)

theorem StGrows.rfl (st : CState) : StGrows st st := ⟨fun _ h => h, fun _ _ h => h⟩

theorem StGrows.trans {a b c : CState} (h1 : StGrows a b) (h2 : StGrows b c) :
    StGrows a c :=
  ⟨fun k hk => h2.1 k (h1.1 k hk), fun k v hv => h2.2 k v (h1.2 k v hv)⟩

/-- `setterOf` at a given fuel only grows the compilation state. -/
def CompMono (fuel : Nat) : Prop :=
  ∀ (d : Decoder) (env : TyEnv) (auxFuel : Nat) (st : CState) (ty : Nat)
    (s : SetterD) (st' : CState),
    setterOf d env auxFuel fuel st ty = .ok (s, st') → StGrows st st'

theorem compileStructFields_mono {fuel : Nat} (hm : CompMono fuel)
    (d : Decoder) (env : TyEnv) (auxFuel : Nat) :
    ∀ (fields : List FieldR) (st : CState)
      (r : List (String × List Nat × SetterD) × CState),
    compileStructFields d env auxFuel fuel st fields = .ok r → StGrows st r.2 := by
  intro fields
  induction fields with
  | nil =>
    intro st r h
    rw [compileStructFields] at h
    simp only [Except.ok.injEq] at h
    rw [← h]
    exact StGrows.rfl st
  | cons f rest ih =>
    intro st r h
    rw [compileStructFields] at h
    rcases hs : setterOf d env auxFuel fuel st f.ty with e | ⟨s, st2⟩ <;> rw [hs] at h <;> (try dsimp only at h)
    · exact absurd h (by simp)
    · rcases hr : compileStructFields d env auxFuel fuel st2 rest with e | ⟨fs, st3⟩ <;>
        rw [hr] at h <;> (try dsimp only at h)
      · exact absurd h (by simp)
      · simp only [Except.ok.injEq] at h
        have h2 := StGrows.trans (hm d env auxFuel st f.ty s st2 hs) (ih st2 (fs, st3) hr)
        rw [← h]
        exact h2

theorem makeSetterOf_mono {fuel : Nat} (hm : CompMono fuel)
    (d : Decoder) (env : TyEnv) (auxFuel : Nat) (st : CState) (ty : Nat)
    (s : SetterD) (st' : CState)
    (h : makeSetterOf d env auxFuel fuel st ty = .ok (s, st')) : StGrows st st' := by
  rw [makeSetterOf] at h
  cases hk : envTy env ty <;> rw [hk] at h <;>
    try (simp only [Except.ok.injEq, Prod.mk.injEq] at h; rw [← h.2]; exact StGrows.rfl st)
  case dPtr t =>
    dsimp only at h
    rw [makeSetPointer] at h
    rcases hs : setterOf d env auxFuel fuel st t with e | ⟨ps, st2⟩ <;> rw [hs] at h <;> (try dsimp only at h)
    · exact absurd h (by simp)
    · rcases hz : zeroValue env auxFuel t with _ | pz <;> rw [hz] at h <;> (try dsimp only at h)
      · exact absurd h (by simp)
      · simp only [Except.ok.injEq, Prod.mk.injEq] at h
        rw [← h.2]
        exact hm d env auxFuel st t ps st2 hs
  case dStruct fds =>
    dsimp only at h
    rw [makeSetStruct] at h
    rcases hf : fieldsToSerialize auxFuel env ty
        (if d.structTag = "" then "json" else d.structTag) with e | fields <;>
      rw [hf] at h <;> (try dsimp only at h)
    · exact absurd h (by simp)
    · rcases hc : compileStructFields d env auxFuel fuel st fields with e | ⟨fs, st2⟩ <;>
        rw [hc] at h <;> (try dsimp only at h)
      · exact absurd h (by simp)
      · simp only [Except.ok.injEq, Prod.mk.injEq] at h
        rw [← h.2]
        exact compileStructFields_mono hm d env auxFuel fields st (fs, st2) hc
  case dSlice t =>
    dsimp only at h
    rw [makeSetSlice] at h
    rcases hs : setterOf d env auxFuel fuel st t with e | ⟨es, st2⟩ <;> rw [hs] at h <;> (try dsimp only at h)
    · exact absurd h (by simp)
    · rcases hz : zeroValue env auxFuel t with _ | ph <;> rw [hz] at h <;> (try dsimp only at h)
      · exact absurd h (by simp)
      · simp only [Except.ok.injEq, Prod.mk.injEq] at h
        rw [← h.2]
        exact hm d env auxFuel st t es st2 hs
  case dArray n t =>
    dsimp only at h
    rw [makeSetArray] at h
    rcases hs : setterOf d env auxFuel fuel st t with e | ⟨es, st2⟩ <;> rw [hs] at h <;> (try dsimp only at h)
    · exact absurd h (by simp)
    · simp only [Except.ok.injEq, Prod.mk.injEq] at h
      rw [← h.2]
      exact hm d env auxFuel st t es st2 hs
  case dMap kt vt =>
    dsimp only at h
    rw [makeSetMap] at h
    rcases hs : setterOf d env auxFuel fuel st kt with e | ⟨ks, st2⟩ <;> rw [hs] at h <;> (try dsimp only at h)
    · exact absurd h (by simp)
    · rcases hv : setterOf d env auxFuel fuel st2 vt with e | ⟨vs, st3⟩ <;> rw [hv] at h <;> (try dsimp only at h)
      · exact absurd h (by simp)
      · rcases hz : zeroValue env auxFuel kt with _ | kz <;> rw [hz] at h <;> (try dsimp only at h)
        · exact absurd h (by simp)
        · rcases hz2 : zeroValue env auxFuel vt with _ | vz <;> rw [hz2] at h <;> (try dsimp only at h)
          · exact absurd h (by simp)
          · simp only [Except.ok.injEq, Prod.mk.injEq] at h
            rw [← h.2]
            exact StGrows.trans (hm d env auxFuel st kt ks st2 hs)
              (hm d env auxFuel st2 vt vs st3 hv)
  case dOther => exact absurd h (by simp)

theorem compMono : ∀ fuel, CompMono fuel := by
  intro fuel
  induction fuel with
  | zero =>
    intro d env auxFuel st ty s st' h
    rw [setterOf] at h
    rcases hc : st.cache.lookup ty with _ | s0 <;> rw [hc] at h
    · by_cases hin : ty ∈ st.inCon
      · simp only [hin, if_true] at h
        simp only [Except.ok.injEq, Prod.mk.injEq] at h
        rw [← h.2]
        exact StGrows.rfl st
      · simp only [hin, if_false] at h
        exact absurd h (by simp)
    · simp only [Except.ok.injEq, Prod.mk.injEq] at h
      rw [← h.2]
      exact StGrows.rfl st
  | succ f ih =>
    intro d env auxFuel st ty s st' h
    rw [setterOf] at h
    rcases hc : st.cache.lookup ty with _ | s0 <;> rw [hc] at h
    · by_cases hin : ty ∈ st.inCon
      · simp only [hin, if_true] at h
        simp only [Except.ok.injEq, Prod.mk.injEq] at h
        rw [← h.2]
        exact StGrows.rfl st
      · simp only [hin, if_false] at h
        rcases hmk : makeSetterOf d env auxFuel f { st with inCon := ty :: st.inCon } ty
          with e | ⟨s2, st2⟩ <;> rw [hmk] at h <;> (try dsimp only at h)
        · exact absurd h (by simp)
        · simp only [Except.ok.injEq, Prod.mk.injEq] at h
          have hg := makeSetterOf_mono ih d env auxFuel
            { st with inCon := ty :: st.inCon } ty s2 st2 hmk
          rw [← h.2]
          constructor
          · intro k hk
            exact hg.1 k (List.mem_cons_of_mem ty hk)
          · intro k v hv
            have hne : (k == ty) = false := by
              by_cases hkt : k = ty
              · rw [hkt] at hv
                rw [hv] at hc
                exact absurd hc (by simp)
              · simp [hkt]
            have h2 := hg.2 k v hv
            simp only [List.lookup, hne]
            exact h2
    · simp only [Except.ok.injEq, Prod.mk.injEq] at h
      rw [← h.2]
      exact StGrows.rfl st

/-- **C5**: the setter cache is write-once per key under sequential
execution: a cached setter is returned as-is (state untouched); no later
`setterOf` call — for any type — replaces or removes a committed entry; a
fresh successful compilation commits its setter under its type; and the
lazy cycle thunk, when executed, runs exactly the setter the cache holds
for its type. -/
theorem setterCache_write_once
    (d : Decoder) (env : TyEnv) (auxFuel fuel : Nat) (st : CState) (ty : Nat) :
    (∀ s, st.cache.lookup ty = some s →
      setterOf d env auxFuel fuel st ty = .ok (s, st)) ∧
    (∀ ty2 s2 st' s, setterOf d env auxFuel fuel st ty2 = .ok (s2, st') →
      st.cache.lookup ty = some s → st'.cache.lookup ty = some s) ∧
    (∀ s st', st.cache.lookup ty = none → ty ∉ st.inCon →
      setterOf d env auxFuel fuel st ty = .ok (s, st') →
      st'.cache.lookup ty = some s) ∧
    (∀ (cache : List (Nat × SetterD)) (s : SetterD) (src : Source) (tgt : Value),
      cache.lookup ty = some s →
      exec d cache (fuel + 1) (.sLazy ty) src tgt = exec d cache fuel s src tgt) := by
  refine ⟨?_, ?_, ?_, ?_⟩
  · intro s hs
    cases fuel with
    | zero => rw [setterOf, hs]
    | succ f => rw [setterOf, hs]
  · intro ty2 s2 st' s hso hs
    exact (compMono fuel d env auxFuel st ty2 s2 st' hso).2 ty s hs
  · intro s st' hnone hnin hso
    cases fuel with
    | zero =>
      rw [setterOf, hnone] at hso
      simp only [hnin, if_false] at hso
      exact absurd hso (by simp)
    | succ f =>
      rw [setterOf, hnone] at hso
      simp only [hnin, if_false] at hso
      rcases hmk : makeSetterOf d env auxFuel f { st with inCon := ty :: st.inCon } ty
        with e | ⟨s3, st3⟩ <;> rw [hmk] at hso <;> (try dsimp only at hso)
      · exact absurd hso (by simp)
      · simp only [Except.ok.injEq, Prod.mk.injEq] at hso
        rw [← hso.2, ← hso.1]
        simp [List.lookup]
  · intro cache s src tgt hs
    rw [exec, hs]

/-- The `witness` companion of `setterCache_write_once`: compile the
setter for a one-type environment, watch it get committed, returned
unchanged by a second call, preserved by that call, and found by an
executing thunk. -/
theorem setterCache_write_once_witness :
    (setterOf NewDecoder [TyDef.dString] 1 1 ⟨[], []⟩ 0 =
      .ok (.sString, ⟨[0], [(0, .sString)]⟩)) ∧
    ((⟨[0], [(0, .sString)]⟩ : CState).cache.lookup 0 = some .sString) ∧
    (setterOf NewDecoder [TyDef.dString] 1 1 ⟨[0], [(0, .sString)]⟩ 0 =
      .ok (.sString, ⟨[0], [(0, .sString)]⟩)) ∧
    (exec NewDecoder [(0, .sString)] 2 (.sLazy 0) (strSrc "x") (.vString "") =
      exec NewDecoder [(0, .sString)] 1 .sString (strSrc "x") (.vString "")) := by
  have hcompile : setterOf NewDecoder [TyDef.dString] 1 1 ⟨[], []⟩ 0 =
      .ok (.sString, ⟨[0], [(0, .sString)]⟩) := by
    rw [setterOf]
    have h1 : (⟨[], []⟩ : CState).cache.lookup 0 = none := rfl
    rw [h1]
    have h2 : (0 : Nat) ∉ (⟨[], []⟩ : CState).inCon := by simp [CState.inCon]
    simp only [h2, if_false]
    rw [makeSetterOf]
    rfl
  refine ⟨hcompile, rfl, ?_, ?_⟩
  · exact (setterCache_write_once NewDecoder [TyDef.dString] 1 1
      ⟨[0], [(0, .sString)]⟩ 0).1 .sString rfl
  · exact (setterCache_write_once NewDecoder [TyDef.dString] 1 1
      ⟨[0], [(0, .sString)]⟩ 0).2.2.2 [(0, .sString)] .sString (strSrc "x")
      (.vString "") rfl

/-- The embedding depth of a candidate (its index-path length). -/
def candLen (c : Cand) : Nat := c.fieldR.index.length

/-- Modelled from the claim's words (spec §4.3 step 5): among a name's
candidates keep only the shallowest-depth subset; if exactly one survives
it wins; otherwise a unique explicit candidate within that subset wins;
otherwise the name is dropped. -/
def minDepth : List Cand → Nat
  | [] => 0
  | [c] => candLen c
  | c :: rest => min (candLen c) (minDepth rest)

/-- Modelled from the claim's words: the per-name selection rule. -/
def specSelect (cands : List Cand) : Option FieldR :=
  match cands with
  | [] => none
  | _ :: _ =>
    let m := minDepth cands
    match cands.filter (fun c => candLen c == m) with
    | [w] => some w.fieldR
    | shallow =>
      match shallow.filter (fun c => c.explicit) with
      | [w] => some w.fieldR
      | _ => none

/-- `sortedLens` is adjacent-pairs non-decreasing. -/
theorem sortedLens_chain : ∀ l : List Nat, sortedLens l = true → l.Chain' (· ≤ ·) := by
  intro l
  induction l with
  | nil => intro _; simp
  | cons a rest ih =>
    cases rest with
    | nil => intro _; simp
    | cons b rest2 =>
      intro h
      rw [sortedLens] at h
      simp only [Bool.and_eq_true, decide_eq_true_eq] at h
      rw [List.chain'_cons]
      exact ⟨h.1, ih h.2⟩

/-- On a depth-sorted candidate list the minimum depth is the head's. -/
theorem minDepth_sorted :
    ∀ (rest : List Cand) (c : Cand),
    List.Pairwise (fun a b => candLen a ≤ candLen b) (c :: rest) →
    minDepth (c :: rest) = candLen c := by
  intro rest
  induction rest with
  | nil => intro c _; rfl
  | cons r rest2 ih =>
    intro c hpw
    have h1 : candLen c ≤ candLen r := (List.pairwise_cons.mp hpw).1 r (List.mem_cons_self r rest2)
    have h2 := ih r (List.Pairwise.of_cons hpw)
    rw [minDepth, h2]
    · omega
    · simp

/-- `lastLen` keeps its accumulator over a match-free list. -/
theorem lastLen_no_match (l0 : Nat) :
    ∀ (cs : List Cand) (i acc : Nat), (∀ x ∈ cs, candLen x ≠ l0) →
    lastLen l0 cs i acc = acc := by
  intro cs
  induction cs with
  | nil => intro i acc _; rfl
  | cons c rest ih =>
    intro i acc h
    have hc := h c (List.mem_cons_self c rest)
    simp only [candLen] at hc
    rw [lastLen, if_neg hc]
    exact ih (i + 1) acc (fun x hx => h x (List.mem_cons_of_mem c hx))

/-- On a depth-sorted list bounded below by `l0`, `lastLen` computes the
length of the matching prefix (shifted by the start index). -/
theorem lastLen_eq (l0 : Nat) :
    ∀ (cs : List Cand) (i acc : Nat),
    (∀ x ∈ cs, l0 ≤ candLen x) →
    List.Pairwise (fun a b => candLen a ≤ candLen b) cs →
    lastLen l0 cs i acc =
      if (cs.takeWhile (fun c => candLen c == l0)).length = 0 then acc
      else i + (cs.takeWhile (fun c => candLen c == l0)).length := by
  intro cs
  induction cs with
  | nil => intro i acc _ _; simp [lastLen]
  | cons c rest ih =>
    intro i acc hge hpw
    by_cases hc : candLen c = l0
    · have hcb : (candLen c == l0) = true := by simp [hc]
      have hcl : c.fieldR.index.length = l0 := hc
      rw [lastLen, if_pos hcl]
      rw [ih (i + 1) (i + 1) (fun x hx => hge x (List.mem_cons_of_mem c hx))
        (List.Pairwise.of_cons hpw)]
      simp only [List.takeWhile_cons, hcb, if_true, List.length_cons]
      by_cases h0 : (rest.takeWhile (fun c => candLen c == l0)).length = 0
      · simp [h0]
      · simp only [h0, if_false]
        have hne : ¬ ((rest.takeWhile (fun c => candLen c == l0)).length + 1 = 0) := by
          omega
        simp only [hne, if_false]
        omega
    · have hgt : l0 < candLen c :=
        lt_of_le_of_ne (hge c (List.mem_cons_self c rest)) (Ne.symm hc)
      have hrest : ∀ x ∈ rest, candLen x ≠ l0 := by
        intro x hx
        have := (List.pairwise_cons.mp hpw).1 x hx
        omega
      have hcb : (candLen c == l0) = false := by simp [hc]
      have hcl : ¬ c.fieldR.index.length = l0 := hc
      rw [lastLen, if_neg hcl]
      simp only [List.takeWhile_cons, hcb, if_false, List.length_nil, if_pos]
      exact lastLen_no_match l0 rest (i + 1) acc hrest

/-- On a depth-sorted list bounded below by `l0`, filtering for depth `l0`
is the same as taking the matching prefix. -/
theorem filter_eq_takeWhile_sorted (l0 : Nat) :
    ∀ cs : List Cand,
    (∀ x ∈ cs, l0 ≤ candLen x) →
    List.Pairwise (fun a b => candLen a ≤ candLen b) cs →
    cs.filter (fun c => candLen c == l0) = cs.takeWhile (fun c => candLen c == l0) := by
  intro cs
  induction cs with
  | nil => intro _ _; rfl
  | cons c rest ih =>
    intro hge hpw
    by_cases hc : candLen c = l0
    · have hcb : (candLen c == l0) = true := by simp [hc]
      simp only [List.filter_cons, List.takeWhile_cons, hcb, if_true]
      rw [ih (fun x hx => hge x (List.mem_cons_of_mem c hx)) (List.Pairwise.of_cons hpw)]
    · have hgt : l0 < candLen c :=
        lt_of_le_of_ne (hge c (List.mem_cons_self c rest)) (Ne.symm hc)
      have hrest : ∀ x ∈ rest, candLen x ≠ l0 := by
        intro x hx
        have := (List.pairwise_cons.mp hpw).1 x hx
        omega
      have hcb : (candLen c == l0) = false := by simp [hc]
      simp only [List.filter_cons, List.takeWhile_cons, hcb, Bool.false_eq_true, if_false]
      rw [List.filter_eq_nil]
      intro x hx
      simp [hrest x hx]

/-- On the non-panicking path, the implementation's per-name selection
computes exactly the claim's selection rule. -/
theorem selectCand_eq_specSelect : ∀ (cs : List Cand) (r : Option FieldR),
    selectCand cs = .ok r → specSelect cs = r := by
  intro cs r h
  match cs with
  | [] => exact absurd h (by simp [selectCand])
  | c0 :: rest =>
    rw [selectCand] at h
    by_cases hsort : sortedLens ((c0 :: rest).map (fun c => c.fieldR.index.length)) = true
    case neg =>
      have hb : sortedLens (List.map (fun c => c.fieldR.index.length) (c0 :: rest)) = false := by
        revert hsort
        cases sortedLens (List.map (fun c => c.fieldR.index.length) (c0 :: rest)) <;> simp
      rw [hb] at h
      simp at h
    case pos =>
      rw [hsort] at h
      simp only [Bool.not_true, Bool.false_eq_true, if_false] at h
      have hchain := sortedLens_chain _ hsort
      have hpw0 := List.chain'_iff_pairwise.mp hchain
      have hpw : List.Pairwise (fun a b => candLen a ≤ candLen b) (c0 :: rest) := by
        rw [List.pairwise_map] at hpw0
        exact hpw0
      have hge : ∀ x ∈ c0 :: rest, candLen c0 ≤ candLen x := by
        intro x hx
        rcases List.mem_cons.mp hx with h1 | h1
        · exact le_of_eq (by rw [h1])
        · exact (List.pairwise_cons.mp hpw).1 x h1
      have hmd : minDepth (c0 :: rest) = candLen c0 := minDepth_sorted rest c0 hpw
      have htw : (c0 :: rest).takeWhile (fun c => candLen c == candLen c0) =
          c0 :: rest.takeWhile (fun c => candLen c == candLen c0) := by
        simp [List.takeWhile_cons]
      have hll : lastLen c0.fieldR.index.length (c0 :: rest) 0 0 =
          ((c0 :: rest).takeWhile (fun c => candLen c == candLen c0)).length := by
        have hl0 : c0.fieldR.index.length = candLen c0 := rfl
        rw [hl0, lastLen_eq (candLen c0) _ 0 0 hge hpw, htw]
        simp
      have hvis : (c0 :: rest).take (lastLen c0.fieldR.index.length (c0 :: rest) 0 0) =
          (c0 :: rest).takeWhile (fun c => candLen c == candLen c0) := by
        rw [hll]
        exact (List.prefix_iff_eq_take.mp (List.takeWhile_prefix _)).symm
      have hfil : (c0 :: rest).filter (fun c => candLen c == minDepth (c0 :: rest)) =
          (c0 :: rest).takeWhile (fun c => candLen c == candLen c0) := by
        rw [hmd]
        exact filter_eq_takeWhile_sorted (candLen c0) _ hge hpw
      rw [hvis, htw] at h
      rw [specSelect]
      simp only [hfil, htw]
      rcases htws : rest.takeWhile (fun c => candLen c == candLen c0) with _ | ⟨w1, tws⟩ <;>
        rw [htws] at h
      · dsimp only at h ⊢
        simp only [Except.ok.injEq] at h
        rw [← h]
      · dsimp only at h ⊢
        rcases hex : (c0 :: w1 :: tws).filter (fun c => c.explicit) with _ | ⟨w, _ | ⟨w2, ws⟩⟩ <;>
          rw [hex] at h <;> simp only [Except.ok.injEq] at h <;> rw [hex, ← h]

/-- On the non-panicking path, the per-name resolution loop computes the
claim's selection rule name by name, in first-seen order. -/
theorem resolveNames_spec (cmap : List (String × List Cand)) :
    ∀ (order : List String) (fs : List FieldR),
    resolveNames cmap order = .ok fs →
    fs = order.filterMap (fun n => specSelect ((cmap.lookup n).getD [])) := by
  intro order
  induction order with
  | nil =>
    intro fs h
    rw [resolveNames] at h
    simp only [Except.ok.injEq] at h
    rw [← h]
    rfl
  | cons name rest ih =>
    intro fs h
    rw [resolveNames] at h
    rcases hr : selectCand ((cmap.lookup name).getD []) with e | r <;> rw [hr] at h
    · exact absurd h (by simp [Bind.bind, Except.bind])
    · rcases hrest : resolveNames cmap rest with e2 | fs2 <;>
        simp only [Bind.bind, Except.bind, hrest] at h
      · exact absurd h (by simp)
      · cases r with
        | some f =>
          simp only [pure, Except.pure, Except.ok.injEq] at h
          rw [List.filterMap_cons, selectCand_eq_specSelect _ _ hr]
          rw [← ih fs2 hrest, ← h]
        | none =>
          simp only [pure, Except.pure, Except.ok.injEq] at h
          rw [List.filterMap_cons, selectCand_eq_specSelect _ _ hr]
          rw [← ih fs2 hrest, ← h]

/-- **C1**: whenever `fieldsToSerialize` returns a field list, that list
is exactly the claim's resolution: the BFS candidate collection grouped by
resolved name in first-seen order, where for each name — its candidates
being sorted by non-decreasing embedding depth — only the
shallowest-depth subset is kept, a unique survivor wins, otherwise a
unique explicit candidate among them wins, and otherwise the name is
dropped entirely (`specSelect` returns `none` and the name contributes no
field, so nothing is decoded for it). -/
theorem fieldsToSerialize_selection_spec (bfsFuel : Nat) (env : TyEnv) (ty : Nat)
    (structTag : String) (fs : List FieldR)
    (h : fieldsToSerialize bfsFuel env ty structTag = .ok fs) :
    ∃ order cmap,
      collectCands env structTag bfsFuel [(ty, [])] [] [] = .ok (order, cmap) ∧
      fs = order.filterMap (fun n => specSelect ((cmap.lookup n).getD [])) := by
  rw [fieldsToSerialize] at h
  cases hk : envTy env ty <;> rw [hk] at h <;> try exact Except.noConfusion h
  case dStruct fds =>
    dsimp only at h
    rcases hc : collectCands env structTag bfsFuel [(ty, [])] [] [] with e | ⟨order, cmap⟩ <;>
      rw [hc] at h <;> (try dsimp only at h)
    · exact absurd h (by simp)
    · rcases hr : resolveNames cmap order with e2 | fs2 <;> rw [hr] at h <;>
        (try dsimp only at h)
      · exact absurd h (by simp)
      · simp only [Except.ok.injEq] at h
        exact ⟨order, cmap, rfl, by rw [← h]; exact resolveNames_spec cmap order fs2 hr⟩

/-- The `witness` companion of `fieldsToSerialize_selection_spec`: two
embedded structs both promoting a `Foo` at depth 1 with no explicit tag is
ambiguous — the name is dropped and the resolver returns no fields (so a
decode leaves the target at its zero value); tagging exactly one of the
candidates makes it win. -/
theorem fieldsToSerialize_selection_spec_witness :
    (fieldsToSerialize 4
      [.dStruct [⟨"A", [], true, true, 1⟩, ⟨"B", [], true, true, 2⟩],
       .dStruct [⟨"Foo", [], false, true, 3⟩],
       .dStruct [⟨"Foo", [], false, true, 3⟩],
       .dString] 0 "json" = .ok []) ∧
    (∃ order cmap,
      collectCands
        [.dStruct [⟨"A", [], true, true, 1⟩, ⟨"B", [], true, true, 2⟩],
         .dStruct [⟨"Foo", [], false, true, 3⟩],
         .dStruct [⟨"Foo", [], false, true, 3⟩],
         .dString] "json" 4 [(0, [])] [] [] = .ok (order, cmap) ∧
      ([] : List FieldR) =
        order.filterMap (fun n => specSelect ((cmap.lookup n).getD []))) ∧
    (fieldsToSerialize 4
      [.dStruct [⟨"A", [], true, true, 1⟩, ⟨"B", [], true, true, 2⟩],
       .dStruct [⟨"Foo", [("json", "Foo")], false, true, 3⟩],
       .dStruct [⟨"Foo", [], false, true, 3⟩],
       .dString] 0 "json" = .ok [{ name := "Foo", ty := 3, index := [0, 0] }]) ∧
    (∃ order cmap,
      collectCands
        [.dStruct [⟨"A", [], true, true, 1⟩, ⟨"B", [], true, true, 2⟩],
         .dStruct [⟨"Foo", [("json", "Foo")], false, true, 3⟩],
         .dStruct [⟨"Foo", [], false, true, 3⟩],
         .dString] "json" 4 [(0, [])] [] [] = .ok (order, cmap) ∧
      [({ name := "Foo", ty := 3, index := [0, 0] } : FieldR)] =
        order.filterMap (fun n => specSelect ((cmap.lookup n).getD []))) := by
  refine ⟨by rfl, ?_, by rfl, ?_⟩
  · exact fieldsToSerialize_selection_spec 4 _ 0 "json" [] (by rfl)
  · exact fieldsToSerialize_selection_spec 4 _ 0 "json" _ (by rfl)

/-- The number of environment types not yet marked in-construction: the
measure that bounds the compiler's recursion. -/
def countMissing (env : TyEnv) (inCon : List Nat) : Nat :=
  ((List.range env.length).filter (fun i => !(inCon.contains i))).length

/-- Filtering with a weaker predicate keeps at least as many elements. -/
theorem filter_length_mono {α : Type} (p q : α → Bool)
    (hpq : ∀ a, p a = true → q a = true) :
    ∀ l : List α, (l.filter p).length ≤ (l.filter q).length := by
  intro l
  induction l with
  | nil => simp
  | cons a rest ih =>
    by_cases hp : p a = true
    · have hq := hpq a hp
      simp only [List.filter_cons, hp, hq, if_true, List.length_cons]
      omega
    · have hp' : p a = false := by revert hp; cases p a <;> simp
      simp only [List.filter_cons, hp', Bool.false_eq_true, if_false]
      by_cases hq : q a = true
      · simp only [hq, if_true, List.length_cons]
        omega
      · have hq' : q a = false := by revert hq; cases q a <;> simp
        simp only [hq', Bool.false_eq_true, if_false]
        exact ih

/-- Filtering with a strictly weaker predicate (witnessed by a member the
strong predicate rejects) keeps strictly more elements. -/
theorem filter_length_strict {α : Type} (p q : α → Bool) (a : α)
    (hpq : ∀ x, p x = true → q x = true) (hpa : p a = false) (hqa : q a = true) :
    ∀ l : List α, a ∈ l → (l.filter p).length < (l.filter q).length := by
  intro l
  induction l with
  | nil => intro h; exact absurd h (List.not_mem_nil a)
  | cons b rest ih =>
    intro hm
    rcases List.mem_cons.mp hm with hb | hb
    · rw [← hb]
      simp only [List.filter_cons, hpa, hqa, Bool.false_eq_true, if_false, if_true,
        List.length_cons]
      have := filter_length_mono p q hpq rest
      omega
    · by_cases hp : p b = true
      · have hq := hpq b hp
        simp only [List.filter_cons, hp, hq, if_true, List.length_cons]
        have := ih hb
        omega
      · have hp' : p b = false := by revert hp; cases p b <;> simp
        simp only [List.filter_cons, hp', Bool.false_eq_true, if_false]
        by_cases hq : q b = true
        · simp only [hq, if_true, List.length_cons]
          have := ih hb
          omega
        · have hq' : q b = false := by revert hq; cases q b <;> simp
          simp only [hq', Bool.false_eq_true, if_false]
          exact ih hb

/-- Growing the in-construction set never increases the measure. -/
theorem countMissing_mono (env : TyEnv) (i1 i2 : List Nat)
    (hsub : ∀ k, k ∈ i1 → k ∈ i2) :
    countMissing env i2 ≤ countMissing env i1 := by
  apply filter_length_mono
  intro a ha
  simp only [Bool.not_eq_true'] at ha ⊢
  by_cases h1 : a ∈ i1
  · exfalso
    have h2 : i2.contains a = true := List.elem_eq_true_of_mem (hsub a h1)
    rw [ha] at h2
    exact Bool.noConfusion h2
  · revert h1
    cases hc : i1.contains a
    · intro _; rfl
    · intro h1
      exact absurd (List.mem_of_elem_eq_true hc) h1

/-- Marking a valid, unmarked type strictly decreases the measure. -/
theorem countMissing_insert (env : TyEnv) (inCon : List Nat) (ty : Nat)
    (hty : ty < env.length) (hnin : ty ∉ inCon) :
    countMissing env (ty :: inCon) < countMissing env inCon := by
  apply filter_length_strict _ _ ty
  · intro x hx
    simp only [Bool.not_eq_true'] at hx ⊢
    cases hc : inCon.contains x
    · rfl
    · exfalso
      have hmem := List.mem_of_elem_eq_true hc
      have h2 : (ty :: inCon).contains x = true :=
        List.elem_eq_true_of_mem (List.mem_cons_of_mem ty hmem)
      rw [hx] at h2
      exact Bool.noConfusion h2
  · simp only [Bool.not_eq_false']
    exact List.elem_eq_true_of_mem (List.mem_cons_self ty inCon)
  · simp only [Bool.not_eq_true']
    cases hc : inCon.contains ty
    · rfl
    · exact absurd (List.mem_of_elem_eq_true hc) hnin
  · exact List.mem_range.mpr hty

/-- A dangling type index behaves as an unsupported kind. -/
theorem envTy_dangling (env : TyEnv) (ty : Nat) (h : env.length ≤ ty) :
    envTy env ty = .dOther := by
  rw [envTy, List.get?_eq_none.mpr h]
  rfl

/-- With an empty in-construction set the measure is the number of types. -/
theorem countMissing_nil (env : TyEnv) : countMissing env [] = env.length := by
  rw [countMissing]
  have h : (List.range env.length).filter (fun i => !(([] : List Nat).contains i)) =
      List.range env.length := by
    apply List.filter_eq_self.mpr
    intro a _
    rfl
  rw [h, List.length_range]

/-- Wrapping a compile error preserves which errors are fuel exhaustion. -/
theorem wrapC_cfuel (ctx : String) (e : CompErr) :
    wrapC ctx e = .cfuel ↔ e = .cfuel := by
  cases e <;> simp [wrapC]

/-- `setterOf` at this fuel never exhausts it when the measure is below
the fuel (the conclusion of the sufficiency induction). -/
def SetterOfNoFuelOut (d : Decoder) (env : TyEnv) (auxFuel fuel : Nat) : Prop :=
  ∀ (st : CState) (ty : Nat), countMissing env st.inCon < fuel →
    setterOf d env auxFuel fuel st ty ≠ .error .cfuel

theorem compileStructFields_nofuel {d : Decoder} {env : TyEnv} {auxFuel fuel : Nat}
    (hS : SetterOfNoFuelOut d env auxFuel fuel) :
    ∀ (fields : List FieldR) (st : CState), countMissing env st.inCon < fuel →
      compileStructFields d env auxFuel fuel st fields ≠ .error .cfuel := by
  intro fields
  induction fields with
  | nil =>
    intro st _
    rw [compileStructFields]
    simp
  | cons f rest ih =>
    intro st hcm
    rw [compileStructFields]
    rcases hs : setterOf d env auxFuel fuel st f.ty with e | ⟨s, st2⟩
    · dsimp only
      intro hx
      simp only [Except.error.injEq] at hx
      exact hS st f.ty hcm (by rw [hs, (wrapC_cfuel _ e).mp hx])
    · dsimp only
      have hg := compMono fuel d env auxFuel st f.ty s st2 hs
      have hcm2 : countMissing env st2.inCon < fuel :=
        lt_of_le_of_lt (countMissing_mono env st.inCon st2.inCon hg.1) hcm
      rcases hr : compileStructFields d env auxFuel fuel st2 rest with e | ⟨fs, st3⟩
      · dsimp only
        intro hx
        simp only [Except.error.injEq] at hx
        exact ih st2 hcm2 (by rw [hr, hx])
      · simp

theorem makeSetterOf_nofuel {d : Decoder} {env : TyEnv} {auxFuel fuel : Nat}
    (hS : SetterOfNoFuelOut d env auxFuel fuel)
    (hbfs : ∀ i, fieldsToSerialize auxFuel env i
      (if d.structTag = "" then "json" else d.structTag) ≠ .error .cfuel)
    (hz : ∀ i, zeroValue env auxFuel i ≠ none) :
    ∀ (st : CState) (ty : Nat), countMissing env st.inCon < fuel →
      makeSetterOf d env auxFuel fuel st ty ≠ .error .cfuel := by
  intro st ty hcm
  rw [makeSetterOf]
  cases hk : envTy env ty <;> try simp
  case dPtr t =>
    rw [makeSetPointer]
    rcases hs : setterOf d env auxFuel fuel st t with e | ⟨ps, st2⟩
    · dsimp only
      intro hx
      simp only [Except.error.injEq] at hx
      exact hS st t hcm (by rw [hs, hx])
    · dsimp only
      rcases hzt : zeroValue env auxFuel t with _ | pz
      · exact absurd hzt (hz t)
      · simp
  case dStruct fds =>
    rw [makeSetStruct]
    rcases hf : fieldsToSerialize auxFuel env ty
        (if d.structTag = "" then "json" else d.structTag) with e | fields
    · dsimp only
      intro hx
      simp only [Except.error.injEq] at hx
      exact hbfs ty (by rw [hf, hx])
    · dsimp only
      rcases hc : compileStructFields d env auxFuel fuel st fields with e | ⟨fs, st2⟩
      · dsimp only
        intro hx
        simp only [Except.error.injEq] at hx
        exact compileStructFields_nofuel hS fields st hcm (by rw [hc, hx])
      · simp
  case dSlice t =>
    rw [makeSetSlice]
    rcases hs : setterOf d env auxFuel fuel st t with e | ⟨es, st2⟩
    · dsimp only
      intro hx
      simp only [Except.error.injEq] at hx
      exact hS st t hcm (by rw [hs, (wrapC_cfuel _ e).mp hx])
    · dsimp only
      rcases hzt : zeroValue env auxFuel t with _ | ph
      · exact absurd hzt (hz t)
      · simp
  case dArray n t =>
    rw [makeSetArray]
    rcases hs : setterOf d env auxFuel fuel st t with e | ⟨es, st2⟩
    · dsimp only
      intro hx
      simp only [Except.error.injEq] at hx
      exact hS st t hcm (by rw [hs, (wrapC_cfuel _ e).mp hx])
    · simp
  case dMap kt vt =>
    rw [makeSetMap]
    rcases hs : setterOf d env auxFuel fuel st kt with e | ⟨ks, st2⟩
    · dsimp only
      intro hx
      simp only [Except.error.injEq] at hx
      exact hS st kt hcm (by rw [hs, (wrapC_cfuel _ e).mp hx])
    · dsimp only
      have hg := compMono fuel d env auxFuel st kt ks st2 hs
      have hcm2 : countMissing env st2.inCon < fuel :=
        lt_of_le_of_lt (countMissing_mono env st.inCon st2.inCon hg.1) hcm
      rcases hv : setterOf d env auxFuel fuel st2 vt with e | ⟨vs, st3⟩
      · dsimp only
        intro hx
        simp only [Except.error.injEq] at hx
        exact hS st2 vt hcm2 (by rw [hv, (wrapC_cfuel _ e).mp hx])
      · dsimp only
        rcases hzk : zeroValue env auxFuel kt with _ | kz
        · exact absurd hzk (hz kt)
        · rcases hzv : zeroValue env auxFuel vt with _ | vz
          · exact absurd hzv (hz vt)
          · simp

/-- Fuel sufficiency for the compiler: with every per-struct field
resolution and every zero value computable within `auxFuel`, `setterOf`
never exhausts a fuel larger than the number of not-yet-marked types. -/
theorem setterOf_nofuel (d : Decoder) (env : TyEnv) (auxFuel : Nat)
    (hbfs : ∀ i, fieldsToSerialize auxFuel env i
      (if d.structTag = "" then "json" else d.structTag) ≠ .error .cfuel)
    (hz : ∀ i, zeroValue env auxFuel i ≠ none) :
    ∀ fuel, SetterOfNoFuelOut d env auxFuel fuel := by
  intro fuel
  induction fuel with
  | zero => intro st ty hcm; omega
  | succ f ih =>
    intro st ty hcm
    rw [setterOf]
    rcases hc : st.cache.lookup ty with _ | s0
    · dsimp only
      by_cases hin : ty ∈ st.inCon
      · simp [hin]
      · simp only [hin, if_false]
        by_cases hv : ty < env.length
        · have hcm1 : countMissing env (ty :: st.inCon) < f := by
            have := countMissing_insert env st.inCon ty hv hin
            omega
          rcases hmk : makeSetterOf d env auxFuel f { st with inCon := ty :: st.inCon } ty
            with e | ⟨s2, st2⟩
          · dsimp only
            intro hx
            simp only [Except.error.injEq] at hx
            exact makeSetterOf_nofuel ih hbfs hz _ ty hcm1 (by rw [hmk, hx])
          · simp
        · have hdang : envTy env ty = .dOther := envTy_dangling env ty (by omega)
          rw [makeSetterOf, hdang]
          simp
    · simp

mutual

/-- Nesting depth of a decoded value. -/
def vDepth : Value → Nat
  | .vBool _ => 0
  | .vInt _ => 0
  | .vUint _ => 0
  | .vFloat _ => 0
  | .vString _ => 0
  | .vOther => 0
  | .vPtr none => 0
  | .vPtr (some v) => 1 + vDepth v
  | .vStruct fs => 1 + vDepthL fs
  | .vSlice l => 1 + vDepthL l
  | .vArray l => 1 + vDepthL l
  | .vMap entries => 1 + vDepthPL entries

/-- Depth of the deepest element. -/
def vDepthL : List Value → Nat
  | [] => 0
  | v :: rest => max (vDepth v) (vDepthL rest)

/-- Depth of the deepest key or value. -/
def vDepthPL : List (Value × Value) → Nat
  | [] => 0
  | (k, v) :: rest => max (max (vDepth k) (vDepth v)) (vDepthPL rest)

end

/-- Every source value has size at least 2 (for slack in depth bounds). -/
theorem src_sizeOf_ge (src : Source) : 2 ≤ sizeOf src := by
  cases src
  simp_arith

/-- A successful association-list lookup returns a strictly smaller
element. -/
theorem lookup_sizeOf_str (k : String) :
    ∀ (ch : List (String × Source)) (c : Source), ch.lookup k = some c →
      sizeOf c < sizeOf ch := by
  intro ch
  induction ch with
  | nil => intro c h; simp [List.lookup] at h
  | cons p rest ih =>
    intro c h
    rcases p with ⟨key, v⟩
    rw [List.lookup] at h
    cases hkk : k == key <;> rw [hkk] at h
    · have := ih c h
      simp_arith
      omega
    · simp only [Option.some.injEq] at h
      rw [← h]
      simp_arith

/-- A child obtained through `Get` is structurally smaller than its
parent, with slack 2. -/
theorem srcGet_sizeOf (src : Source) (k : String) (c : Source)
    (h : srcGet src k = .ok c) : sizeOf c + 2 ≤ sizeOf src := by
  rcases src with ⟨b, i, u, f, s, ns, ge, ch, ke, kvs, ie, el, bv⟩
  rw [srcGet] at h
  cases ns with
  | true => exact absurd h (by simp)
  | false =>
    simp only [Bool.false_eq_true, if_false] at h
    rcases hge : ge.lookup k with _ | e <;> rw [hge] at h
    · rcases hch : ch.lookup k with _ | c2 <;> rw [hch] at h
      · exact absurd h (by simp)
      · simp only [Except.ok.injEq] at h
        have := lookup_sizeOf_str k ch c2 hch
        rw [← h]
        simp_arith
        omega
    · exact absurd h (by simp)

/-- The compiled signed-integer setter never consumes fuel, and its
result slot is either unchanged or a plain integer. -/
theorem exec_sInt_shape (d : Decoder) (cache : List (Nat × SetterD)) (fuel : Nat)
    (sel : BinIntSel) (mn mx : Int) (src : Source) (tgt : Value) :
    (exec d cache fuel (.sInt sel mn mx) src tgt).2 ≠ .outOfFuel ∧
    ((exec d cache fuel (.sInt sel mn mx) src tgt).1 = tgt ∨
      ∃ v, (exec d cache fuel (.sInt sel mn mx) src tgt).1 = .vInt v) := by
  rw [exec]
  rcases hb : srcBinary src with _ | bv
  · rcases hi : srcInt src with e | v
    · simp
    · by_cases h1 : v < mn
      · simp [h1]
      · by_cases h2 : v > mx
        · simp [h1, h2]
        · simp only [h1, h2, if_false]
          exact ⟨by simp, Or.inr ⟨v, rfl⟩⟩
  · rcases hbi : binIntOf sel bv with e | v
    · simp [hbi]
    · simp only [hbi]
      exact ⟨by simp, Or.inr ⟨v, rfl⟩⟩

/-- The canonical self-referential type of the spec: a node holding an
`int64` value and an optional pointer to its own type,
`type Node struct { Value int64; Next *Node }`. -/
def nodeEnv : TyEnv :=
  [.dStruct [⟨"Value", [], false, true, 1⟩, ⟨"Next", [], false, true, 2⟩],
   .dInt64, .dPtr 0]

/-- The zero node value. -/
def nodeZero : Value := .vStruct [.vInt 0, .vPtr none]

/-- The setter the decoder compiles for the node type: field setters for
`Value` and `Next`, the latter allocating a fresh zero node and running
the cycle thunk against it. -/
def nodeSetter : SetterD :=
  .sStruct [("Value", [0], .sInt .b64 minInt64 maxInt64),
            ("Next", [1], .sPtr nodeZero (.sLazy 0))]

/-- Decoding the self-referential node type terminates on every source,
with fuel bounded by the source's size, producing a value whose nesting
depth is bounded by the source's size. -/
theorem nodeSetter_decode_total (cache : List (Nat × SetterD))
    (hcache : cache.lookup 0 = some nodeSetter) :
    ∀ (n : Nat) (src : Source) (fuel : Nat), sizeOf src ≤ n → sizeOf src ≤ fuel →
      (exec NewDecoder cache fuel nodeSetter src nodeZero).2 ≠ .outOfFuel ∧
      vDepth (exec NewDecoder cache fuel nodeSetter src nodeZero).1 ≤ sizeOf src := by
  intro n
  induction n using Nat.strong_induction_on with
  | _ n ih =>
    intro src fuel hsn hsf
    have hs2 := src_sizeOf_ge src
    have phase2 : ∀ w : Value, vDepth w = 0 →
        (execFields NewDecoder cache fuel [("Next", [1], .sPtr nodeZero (.sLazy 0))]
          src (.vStruct [w, .vPtr none])).2 ≠ .outOfFuel ∧
        vDepth (execFields NewDecoder cache fuel
          [("Next", [1], .sPtr nodeZero (.sLazy 0))]
          src (.vStruct [w, .vPtr none])).1 ≤ sizeOf src := by
      intro w hw
      rw [execFields]
      rcases hg2 : srcGet src "Next" with e2 | c2
      · dsimp only
        cases hnv : e2.isNoValue
        · simp only [Bool.false_eq_true, if_false]
          constructor
          · simp
          · simp [vDepth, vDepthL, hw]
            omega
        · simp only [if_true]
          have hrv : NewDecoder.requireValues = false := rfl
          rw [hrv]
          simp only [Bool.false_eq_true, if_false]
          rw [execFields]
          constructor
          · simp
          · simp [vDepth, vDepthL, hw]
            omega
      · dsimp only
        have hgi : getAtIndex (.vStruct [w, .vPtr none]) [1] = some (.vPtr none) := rfl
        rw [hgi]
        dsimp only
        cases fuel with
        | zero => omega
        | succ f =>
          rw [exec]
          rw [exec, hcache]
          dsimp only
          have hc2 := srcGet_sizeOf src "Next" c2 hg2
          have hih := ih (n - 1) (by omega) c2 f (by omega) (by omega)
          rcases hr2 : exec NewDecoder cache f nodeSetter c2 nodeZero with ⟨pv, pout⟩
          rw [hr2] at hih
          cases pout with
          | done =>
            dsimp only
            have hpi : putAtIndex (Value.vStruct [w, .vPtr none]) [1]
                (.vPtr (some pv)) = .vStruct [w, .vPtr (some pv)] := rfl
            rw [hpi, execFields]
            constructor
            · simp
            · simp only [vDepth, vDepthL, hw]
              have hd := hih.2
              simp only at hd
              omega
          | fail e =>
            dsimp only
            have hpi : putAtIndex (Value.vStruct [w, .vPtr none]) [1]
                (.vPtr none) = .vStruct [w, .vPtr none] := rfl
            rw [hpi]
            constructor
            · simp
            · simp [vDepth, vDepthL, hw]
              omega
          | outOfFuel => exact absurd rfl hih.1
    have hnz : nodeZero = .vStruct [.vInt 0, .vPtr none] := rfl
    rw [nodeSetter, exec, execFields]
    rcases hg1 : srcGet src "Value" with e1 | c1
    · dsimp only
      cases hnv : e1.isNoValue
      · simp only [Bool.false_eq_true, if_false]
        constructor
        · simp
        · rw [hnz]
          simp [vDepth, vDepthL]
          omega
      · simp only [if_true]
        have hrv : NewDecoder.requireValues = false := rfl
        rw [hrv]
        simp only [Bool.false_eq_true, if_false]
        rw [hnz]
        exact phase2 (.vInt 0) rfl
    · dsimp only
      have hgi : getAtIndex nodeZero [0] = some (.vInt 0) := rfl
      rw [hgi]
      dsimp only
      have hsh := exec_sInt_shape NewDecoder cache fuel .b64 minInt64 maxInt64 c1 (.vInt 0)
      rcases hint : exec NewDecoder cache fuel (.sInt .b64 minInt64 maxInt64) c1 (.vInt 0)
        with ⟨rv, rout⟩
      rw [hint] at hsh
      have hdep0 : vDepth rv = 0 := by
        rcases hsh.2 with h0 | ⟨v, h0⟩ <;> simp only at h0 <;> rw [h0] <;> rfl
      cases rout with
      | done =>
        dsimp only
        have hpi : putAtIndex nodeZero [0] rv = .vStruct [rv, .vPtr none] := rfl
        rw [hpi]
        exact phase2 rv hdep0
      | fail e =>
        dsimp only
        have hpi : putAtIndex nodeZero [0] rv = .vStruct [rv, .vPtr none] := rfl
        rw [hpi]
        constructor
        · simp
        · simp [vDepth, vDepthL, hdep0]
          omega
      | outOfFuel => exact absurd rfl hsh.1

/-- Decoding terminates: some fuel suffices for the run not to be cut
off. Only the cycle thunk consumes fuel, so this is exactly "the Go
execution reaches an outcome instead of recursing forever". -/
def decodeTerminates (d : Decoder) (cache : List (Nat × SetterD)) (s : SetterD)
    (src : Source) (tgt : Value) : Prop :=
  ∃ fuel, (exec d cache fuel s src tgt).2 ≠ .outOfFuel

/-- What the decoder compiles for `type A *A` — a pointer whose pointee
setter is the cycle thunk for the same type. -/
theorem ptrSelf_compiles :
    setterOf NewDecoder [TyDef.dPtr 0] 2 2 ⟨[], []⟩ 0 =
      .ok (.sPtr (.vPtr none) (.sLazy 0),
        ⟨[0], [(0, .sPtr (.vPtr none) (.sLazy 0))]⟩) := by
  rw [setterOf]
  have h1 : (⟨[], []⟩ : CState).cache.lookup 0 = none := rfl
  rw [h1]
  have h2 : ¬ ((0 : Nat) ∈ (⟨[], []⟩ : CState).inCon) := by
    intro hx
    exact List.not_mem_nil 0 hx
  rw [if_neg h2]
  rw [makeSetterOf]
  have h3 : envTy [TyDef.dPtr 0] 0 = TyDef.dPtr 0 := rfl
  rw [h3]
  dsimp only
  rw [makeSetPointer]
  rw [setterOf]
  rfl

/-- Executing the `type A *A` setter re-enters itself on the same source
without consuming any of it: every fuel bound is exceeded. -/
theorem ptrSelf_exec_loops :
    ∀ (fuel : Nat) (tgt : Value),
    (exec NewDecoder [(0, SetterD.sPtr (.vPtr none) (.sLazy 0))] fuel
      (.sPtr (.vPtr none) (.sLazy 0)) emptySrc tgt).2 = .outOfFuel := by
  intro fuel
  induction fuel with
  | zero =>
    intro tgt
    rw [exec, exec]
  | succ f ih =>
    intro tgt
    rw [exec, exec]
    have hl : ([(0, SetterD.sPtr (.vPtr none) (.sLazy 0))] : List (Nat × SetterD)).lookup 0 =
        some (.sPtr (.vPtr none) (.sLazy 0)) := rfl
    rw [hl]
    dsimp only
    have hih := ih (.vPtr none)
    rcases hx : exec NewDecoder [(0, SetterD.sPtr (.vPtr none) (.sLazy 0))] f
        (.sPtr (.vPtr none) (.sLazy 0)) emptySrc (.vPtr none) with ⟨v, out⟩
    rw [hx] at hih
    simp only at hih
    rw [hih]

/-- The `counterexample` for **C4** as stated: the self-referential type
`type A *A` — whose cycle passes through a pointer indirection — compiles
fine (to the setter above), but decoding with that setter never
terminates, on any source, however large the fuel; so "decoding a source
whose nesting depth is finite terminates" is false for this target type. -/
theorem decode_ptr_self_cycle_diverges :
    setterOf NewDecoder [TyDef.dPtr 0] 2 2 ⟨[], []⟩ 0 =
      .ok (.sPtr (.vPtr none) (.sLazy 0),
        ⟨[0], [(0, .sPtr (.vPtr none) (.sLazy 0))]⟩) ∧
    ¬ decodeTerminates NewDecoder [(0, .sPtr (.vPtr none) (.sLazy 0))]
      (.sPtr (.vPtr none) (.sLazy 0)) emptySrc (.vPtr none) := by
  refine ⟨ptrSelf_compiles, ?_⟩
  rintro ⟨fuel, h⟩
  exact h (ptrSelf_exec_loops fuel (.vPtr none))

/-- **C4** (amended): for every type environment, setter compilation
terminates — with every struct's field resolution and every zero value
computable within the auxiliary fuel, `setterOf` from a fresh state never
runs out of a recursion budget one larger than the number of types
(compilation may still report a Go error such as `NotSupported`, which is
termination); and decoding terminates with output depth bounded by the
source size for the spec's canonical self-referential node type, whose
pointer cycle passes through a struct that consumes a child of the source
at each unfolding.  (As stated, the claim is false: a type whose cycle
passes only through pointer indirection, `type A *A`, compiles but its
decode never terminates — see the counterexample.) -/
theorem setterOf_terminates_and_node_decode_terminates :
    (∀ (d : Decoder) (env : TyEnv) (auxFuel : Nat),
      (∀ i, fieldsToSerialize auxFuel env i
        (if d.structTag = "" then "json" else d.structTag) ≠ .error .cfuel) →
      (∀ i, zeroValue env auxFuel i ≠ none) →
      ∀ ty, setterOf d env auxFuel (env.length + 1) ⟨[], []⟩ ty ≠ .error .cfuel) ∧
    (∀ (cache : List (Nat × SetterD)), cache.lookup 0 = some nodeSetter →
      ∀ (src : Source) (fuel : Nat), sizeOf src ≤ fuel →
      (exec NewDecoder cache fuel nodeSetter src nodeZero).2 ≠ .outOfFuel ∧
      vDepth (exec NewDecoder cache fuel nodeSetter src nodeZero).1 ≤ sizeOf src) := by
  constructor
  · intro d env auxFuel hbfs hz ty
    apply setterOf_nofuel d env auxFuel hbfs hz (env.length + 1)
    rw [countMissing_nil]
    omega
  · intro cache hcache src fuel hsf
    exact nodeSetter_decode_total cache hcache (sizeOf src) src fuel (le_refl _) hsf

/-- The `witness` companion of
`setterOf_terminates_and_node_decode_terminates`, at the node
environment: its field resolutions and zero values fit in fuel 5, so
compiling any of its types within recursion budget `length + 1 = 4` does
not exhaust the fuel; and a two-node source decodes to completion. -/
theorem setterOf_terminates_and_node_decode_terminates_witness :
    (setterOf NewDecoder nodeEnv 5 (nodeEnv.length + 1) ⟨[], []⟩ 0 ≠
      .error .cfuel) ∧
    ((exec NewDecoder [(0, nodeSetter)]
        (sizeOf (objSrc [("Value", intSrc 1), ("Next", objSrc [("Value", intSrc 2)])]))
        nodeSetter (objSrc [("Value", intSrc 1), ("Next", objSrc [("Value", intSrc 2)])])
        nodeZero).2 ≠ .outOfFuel) := by
  have hbfs : ∀ i, fieldsToSerialize 5 nodeEnv i
      (if NewDecoder.structTag = "" then "json" else NewDecoder.structTag) ≠
        .error .cfuel := by
    have htag : (if NewDecoder.structTag = "" then "json" else NewDecoder.structTag) =
        "json" := rfl
    rw [htag]
    intro i
    match i with
    | 0 =>
      intro h
      rw [show fieldsToSerialize 5 nodeEnv 0 "json" =
        .ok [⟨"Value", 1, [0]⟩, ⟨"Next", 2, [1]⟩] from rfl] at h
      exact Except.noConfusion h
    | 1 =>
      intro h
      rw [show fieldsToSerialize 5 nodeEnv 1 "json" =
        .error (.cfail (.msg "panic: not a struct")) from rfl] at h
      simp at h
    | 2 =>
      intro h
      rw [show fieldsToSerialize 5 nodeEnv 2 "json" =
        .error (.cfail (.msg "panic: not a struct")) from rfl] at h
      simp at h
    | (k + 3) =>
      intro h
      have hd : envTy nodeEnv (k + 3) = .dOther := by
        apply envTy_dangling
        simp [nodeEnv]
      rw [fieldsToSerialize, hd] at h
      simp at h
  have hz : ∀ i, zeroValue nodeEnv 5 i ≠ none := by
    intro i
    match i with
    | 0 => intro h; rw [show zeroValue nodeEnv 5 0 = some nodeZero from rfl] at h; simp at h
    | 1 => intro h; rw [show zeroValue nodeEnv 5 1 = some (.vInt 0) from rfl] at h; simp at h
    | 2 => intro h; rw [show zeroValue nodeEnv 5 2 = some (.vPtr none) from rfl] at h; simp at h
    | (k + 3) =>
      intro h
      have hd : envTy nodeEnv (k + 3) = .dOther := by
        apply envTy_dangling
        simp [nodeEnv]
      have hzv : zeroValue nodeEnv (4 + 1) (k + 3) = some .vOther := by
        rw [zeroValue, hd]
      rw [show (5 : Nat) = 4 + 1 from rfl, hzv] at h
      simp at h
  constructor
  · exact setterOf_terminates_and_node_decode_terminates.1 NewDecoder nodeEnv 5 hbfs hz 0
  · exact (setterOf_terminates_and_node_decode_terminates.2 [(0, nodeSetter)] rfl
      (objSrc [("Value", intSrc 1), ("Next", objSrc [("Value", intSrc 2)])])
      (sizeOf (objSrc [("Value", intSrc 1), ("Next", objSrc [("Value", intSrc 2)])]))
      (le_refl _)).1
